import Mathlib

/-!
Verification of the florence2 batch-export core: the CSV codec
(`parseCSV` in `src/utils/imageCropping.js`), the streaming result sinks
(`src/utils/streamingWriter.js`, newer revision), the batch runner
(`runBatch` in `src/worker.js` plus the forwarding handler in
`src/App.jsx`), and the region extractor
(`cropAndSaveImagesStreaming` in `src/utils/imageCropping.js`).

The JavaScript code is shallowly embedded: JS strings are `List Char`
or `String`, JS numbers are modeled as exact rationals (IEEE-754
rounding is not modeled; every numeric literal that appears in a CSV
file denotes an exact decimal rational, and the properties proved here
do not depend on double rounding), JS objects are insertion-ordered
association lists, and code that throws returns `Except String`.
-/

namespace Florence2

/-! ### JavaScript whitespace, trimming, and splitting -/

/-- ASCII whitespace as recognized by `String.prototype.trim` and by
`Number` coercion (the Unicode space classes beyond ASCII are not
modeled; no claim involves them). -/
def isWS (c : Char) : Bool :=
  c = ' ' || c = '\t' || c = '\n' || c = '\r' || c = '\x0B' || c = '\x0C'

/-- Model of `String.prototype.trim`: strip leading and trailing
whitespace characters. -/
def trimChars (cs : List Char) : List Char :=
  ((cs.dropWhile isWS).reverse.dropWhile isWS).reverse

/-- Model of `str.split(sep)` for a single-character separator: JS
returns one (possibly empty) piece per gap, never an empty array. -/
def splitOnChar (sep : Char) : List Char → List (List Char)
  | [] => [[]]
  | c :: rest =>
    if c = sep then [] :: splitOnChar sep rest
    else
      match splitOnChar sep rest with
      | [] => [[c]]
      | p :: ps => (c :: p) :: ps

/-- Join pieces with a separator character, the inverse of
`splitOnChar` on separator-free pieces. -/
def joinWithChar (sep : Char) : List (List Char) → List Char
  | [] => []
  | [x] => x
  | x :: xs => x ++ sep :: joinWithChar sep xs

/-! ### Decimal digit strings -/

def isDigitCh (c : Char) : Bool := '0' ≤ c && c ≤ '9'

def digitVal (c : Char) : ℕ := c.toNat - '0'.toNat

def digitCh (d : ℕ) : Char := Char.ofNat ('0'.toNat + d)

/-- Big-endian value of a digit string, as read left to right. -/
def digitsValAux : ℕ → List Char → ℕ
  | acc, [] => acc
  | acc, c :: rest => digitsValAux (10 * acc + digitVal c) rest

def digitsVal (cs : List Char) : ℕ := digitsValAux 0 cs

/-- Little-endian digits of a natural number, with an explicit fuel
argument so that the recursion is structural. -/
def natDigitsRevAux : ℕ → ℕ → List Char
  | 0, _ => []
  | fuel + 1, n => if n = 0 then [] else digitCh (n % 10) :: natDigitsRevAux fuel (n / 10)

/-- Big-endian decimal digit characters of a natural number; empty for
zero (callers pad as needed). -/
def natToChars (n : ℕ) : List Char := (natDigitsRevAux n n).reverse

/-- Little-endian value of a digit string. -/
def digitsValLE : List Char → ℕ
  | [] => 0
  | c :: rest => digitVal c + 10 * digitsValLE rest

/-- Largest power of `p` dividing `n`, with fuel for structural
recursion. -/
def powDivAux : ℕ → ℕ → ℕ → ℕ
  | 0, _, _ => 0
  | fuel + 1, p, n =>
    if 2 ≤ p && n != 0 && n % p == 0 then powDivAux fuel p (n / p) + 1 else 0

def powDiv (p n : ℕ) : ℕ := powDivAux n p n

/-! ### JavaScript numbers

JS numbers are modeled as exact rationals plus the two infinities. `NaN`
is not represented: the only places the code could produce it are guarded
(`parseFloat` is invoked only on strings accepted by `isNaN`, which always
contain a digit or `Infinity`), and the model returns `0` on the
unreachable digit-free path. -/

inductive JNum where
  | rat (q : ℚ)
  | inf
  | negInf
deriving Repr, DecidableEq

/-- Take while a predicate holds, together with the rest. -/
def spanP (p : Char → Bool) : List Char → List Char × List Char
  | [] => ([], [])
  | c :: rest =>
    if p c then
      match spanP p rest with
      | (a, b) => (c :: a, b)
    else ([], c :: rest)

/-- Consume one optional sign character; `true` means negative. -/
def readSign : List Char → Bool × List Char
  | '-' :: rest => (true, rest)
  | '+' :: rest => (false, rest)
  | cs => (false, cs)

def infinityChars : List Char := ['I', 'n', 'f', 'i', 'n', 'i', 't', 'y']

def startsWithChars : List Char → List Char → Bool
  | [], _ => true
  | _ :: _, [] => false
  | a :: as, b :: bs => a = b && startsWithChars as bs

/-- Exponent digits after the `e`: optional sign then digits; an
incomplete exponent contributes nothing (as in `parseFloat`). -/
def readExpDigits (cs : List Char) : ℤ :=
  match readSign cs with
  | (neg, cs2) =>
    match spanP isDigitCh cs2 with
    | (ds, _) =>
      if ds.isEmpty then 0
      else if neg then -(digitsVal ds : ℤ) else (digitsVal ds : ℤ)

def readExp : List Char → ℤ
  | 'e' :: rest => readExpDigits rest
  | 'E' :: rest => readExpDigits rest
  | _ => 0

/-- The rational `±m · 10^e`, built with `mkRat` so that concrete
instances reduce in the kernel. -/
def mkDec (neg : Bool) (m : ℕ) (e : ℤ) : ℚ :=
  let z : ℤ := if neg then -(m : ℤ) else (m : ℤ)
  if 0 ≤ e then mkRat (z * 10 ^ e.toNat) 1 else mkRat z (10 ^ (-e).toNat)

/-- Model of `parseFloat` on a string with leading whitespace already
removed: longest-prefix parse of an optionally signed decimal literal or
`Infinity`.  On a prefix containing no digit JS yields `NaN`; every call
site in the embedded code guards with `isNaN` first, so the model returns
`0` there. -/
def parseFloatChars (cs : List Char) : JNum :=
  match readSign cs with
  | (neg, cs1) =>
    if startsWithChars infinityChars cs1 then (if neg then .negInf else .inf)
    else
      match spanP isDigitCh cs1 with
      | (ds1, rest1) =>
        match (match rest1 with
               | '.' :: restp => spanP isDigitCh restp
               | _ => ([], rest1)) with
        | (ds2, rest2) =>
          if ds1.isEmpty && ds2.isEmpty then .rat 0
          else .rat (mkDec neg (digitsVal (ds1 ++ ds2)) (readExp rest2 - ds2.length))

/-- Model of `parseFloat(s)`: skip leading whitespace, then parse the
longest numeric prefix. -/
def jsParseFloat (s : String) : JNum :=
  parseFloatChars (s.data.dropWhile isWS)

/-! #### The `isNaN` test

`parseCSV` decides between number and string fields with
`value && !isNaN(value)`.  `isNaN` coerces via `Number(...)`, whose
string grammar is: optional whitespace, then an optionally signed
decimal literal or `Infinity`, or an unsigned `0x`/`0o`/`0b` radix
literal, consuming the entire string. -/

def isHexDigitCh (c : Char) : Bool :=
  isDigitCh c || ('a' ≤ c && c ≤ 'f') || ('A' ≤ c && c ≤ 'F')

def isOctDigitCh (c : Char) : Bool := '0' ≤ c && c ≤ '7'

def isBinDigitCh (c : Char) : Bool := c = '0' || c = '1'

def expDigitsOk (cs : List Char) : Bool :=
  match readSign cs with
  | (_, cs2) => !cs2.isEmpty && cs2.all isDigitCh

/-- After the mantissa, the rest must be empty or a complete exponent. -/
def isExpPartOk : List Char → Bool
  | [] => true
  | 'e' :: rest => expDigitsOk rest
  | 'E' :: rest => expDigitsOk rest
  | _ => false

/-- Complete decimal-literal check, after any sign: `digits [. digits?]`
or `. digits`, each followed by an optional exponent. -/
def isDecTailOk (cs : List Char) : Bool :=
  match spanP isDigitCh cs with
  | (ds1, rest1) =>
    if ds1.isEmpty then
      match rest1 with
      | '.' :: restp =>
        match spanP isDigitCh restp with
        | (ds2, rest2) => !ds2.isEmpty && isExpPartOk rest2
      | _ => false
    else
      match rest1 with
      | '.' :: restp =>
        match spanP isDigitCh restp with
        | (_, rest2) => isExpPartOk rest2
      | rest => isExpPartOk rest

/-- Unsigned hex / octal / binary integer literal (`0x…`, `0o…`, `0b…`). -/
def isRadixIntOk : List Char → Bool
  | '0' :: x :: rest =>
    if x = 'x' || x = 'X' then !rest.isEmpty && rest.all isHexDigitCh
    else if x = 'o' || x = 'O' then !rest.isEmpty && rest.all isOctDigitCh
    else if x = 'b' || x = 'B' then !rest.isEmpty && rest.all isBinDigitCh
    else false
  | _ => false

def jsStrNumericBody (cs : List Char) : Bool :=
  isRadixIntOk cs ||
  (match readSign cs with
   | (_, cs1) => cs1 == infinityChars || isDecTailOk cs1)

/-- Model of `!isNaN(s)` for a string `s`: `Number(s)` is not `NaN`.
The whitespace-only string coerces to `0`, hence counts as numeric. -/
def jsIsNumeric (s : String) : Bool :=
  let cs := trimChars s.data
  cs.isEmpty || jsStrNumericBody cs

/-! #### `Number.prototype.toString`

Plain positional decimal rendering of a rational whose reduced
denominator divides a power of ten.  JS switches to exponential notation
for magnitudes at or above `1e21` or below `1e-6`; that notation is not
modeled — the positional form emitted here reparses (by `parseFloat` or
`Number`) to the same numeric value, and no proved property depends on
which of the two spellings is written.  The fallback branch for a
denominator that is not of the form `2^a·5^b` cannot arise from values
this program constructs (JS doubles only produce such denominators). -/

def renderDecimal (neg : Bool) (N K : ℕ) : List Char :=
  let ds0 := natToChars N
  let ds := List.replicate (K + 1 - ds0.length) '0' ++ ds0
  let ip := ds.take (ds.length - K)
  let fp := ds.drop (ds.length - K)
  (if neg then ['-'] else []) ++ ip ++ (if K = 0 then [] else '.' :: fp)

def ratRenderChars (q : ℚ) : List Char :=
  let n := q.num.natAbs
  let d := q.den
  let a := powDiv 2 d
  let b := powDiv 5 d
  if 2 ^ a * 5 ^ b = d then
    renderDecimal (q.num < 0) (n * 10 ^ max a b / d) (max a b)
  else
    (if q.num < 0 then ['-'] else []) ++ natToChars n ++ '/' :: natToChars d

def numToString : JNum → String
  | .rat q => String.mk (ratRenderChars q)
  | .inf => "Infinity"
  | .negInf => "-Infinity"

/-! ### JavaScript values and objects -/

/-- Model of the JS values flowing through the export pipeline: the data
read back from CSV, the raw inference results, and the rows built by the
writers.  Objects are insertion-ordered association lists, as JS object
property order is observable in this code (`Object.keys` fixes the CSV
header order). -/
inductive JSVal where
  | vundef
  | vnull
  | vbool (b : Bool)
  | vnum (n : JNum)
  | vstr (s : String)
  | varr (elems : List JSVal)
  | vobj (fields : List (String × JSVal))

/-- A JS object as an insertion-ordered association list. -/
abbrev Obj := List (String × JSVal)

/-- JS truthiness.  `NaN` is absent from the model (see `JNum`). -/
def truthy : JSVal → Bool
  | .vundef => false
  | .vnull => false
  | .vbool b => b
  | .vnum (.rat q) => q.num != 0
  | .vnum .inf => true
  | .vnum .negInf => true
  | .vstr s => !s.data.isEmpty
  | .varr _ => true
  | .vobj _ => true

def hasKeyName (o : Obj) (k : String) : Bool :=
  o.any (fun p => p.1 == k)

/-- Model of `obj[k] = v`: update in place if the key exists (JS keeps
the original insertion position), else append. -/
def objInsert (o : Obj) (k : String) (v : JSVal) : Obj :=
  if hasKeyName o k then o.map (fun p => if p.1 == k then (k, v) else p)
  else o ++ [(k, v)]

/-- Model of `obj[k]`: `undefined` when the key is absent. -/
def objGet (o : Obj) (k : String) : JSVal :=
  match o.find? (fun p => p.1 == k) with
  | some p => p.2
  | none => JSVal.vundef

/-- Property read `v.k` on an arbitrary value: only objects carry the
named properties this code reads; on the other value forms the names
used here (`labels`, `bboxes`, …) are absent. -/
def jsGetField (v : JSVal) (k : String) : JSVal :=
  match v with
  | .vobj fs => objGet fs k
  | _ => JSVal.vundef

/-- Model of `.length` as used on `labels`: arrays and strings have a
numeric length, on other values `i < undefined` is false so the loops
run zero times. -/
def jsLen : JSVal → ℕ
  | .varr es => es.length
  | .vstr s => s.data.length
  | _ => 0

/-- Model of `v[i]` for a numeric index. -/
def jsIndex (v : JSVal) (i : ℕ) : JSVal :=
  match v with
  | .varr es => es.getD i .vundef
  | .vstr s => match s.data.get? i with
    | some c => .vstr (String.mk [c])
    | none => .vundef
  | _ => .vundef

def joinWithSeq (sep : List Char) : List (List Char) → List Char
  | [] => []
  | [x] => x
  | x :: xs => x ++ sep ++ joinWithSeq sep xs

mutual

/-- Model of `String(v)` / template-literal coercion: arrays stringify
as their elements joined by commas with `null`/`undefined` elements
empty, objects as `[object Object]`. -/
def jsToStringChars : JSVal → List Char
  | .vundef => "undefined".data
  | .vnull => "null".data
  | .vbool b => if b then "true".data else "false".data
  | .vnum n => (numToString n).data
  | .vstr s => s.data
  | .varr es => jsArrJoin es
  | .vobj _ => "[object Object]".data

def jsArrJoin : List JSVal → List Char
  | [] => []
  | [.vundef] => []
  | [.vnull] => []
  | [e] => jsToStringChars e
  | .vundef :: rest => ',' :: jsArrJoin rest
  | .vnull :: rest => ',' :: jsArrJoin rest
  | e :: rest => jsToStringChars e ++ ',' :: jsArrJoin rest

end

def jsToString (v : JSVal) : String := String.mk (jsToStringChars v)

def jsonEscape : List Char → List Char
  | [] => []
  | c :: rest =>
    if c = '"' then '\\' :: '"' :: jsonEscape rest
    else if c = '\\' then '\\' :: '\\' :: jsonEscape rest
    else if c = '\n' then '\\' :: 'n' :: jsonEscape rest
    else if c = '\t' then '\\' :: 't' :: jsonEscape rest
    else if c = '\r' then '\\' :: 'r' :: jsonEscape rest
    else c :: jsonEscape rest

/-- Does a field list keep at least one field under `JSON.stringify`
(which drops `undefined`-valued fields)? -/
def hasKeptField (fs : List (String × JSVal)) : Bool :=
  fs.any (fun p => match p.2 with | .vundef => false | _ => true)

mutual

/-- Compact `JSON.stringify` (no spacing), used by the CSV writer for
object-shaped results.  Non-finite numbers serialize as `null`;
`undefined` is dropped from objects and becomes `null` in arrays. -/
def jsonValChars : JSVal → List Char
  | .vundef => "null".data
  | .vnull => "null".data
  | .vbool b => if b then "true".data else "false".data
  | .vnum (.rat q) => ratRenderChars q
  | .vnum .inf => "null".data
  | .vnum .negInf => "null".data
  | .vstr s => '"' :: (jsonEscape s.data ++ ['"'])
  | .varr es => '[' :: (jsonArrElems es ++ [']'])
  | .vobj fs => '{' :: (jsonObjFields true fs ++ ['}'])

def jsonArrElems : List JSVal → List Char
  | [] => []
  | [e] => jsonValChars e
  | e :: rest => jsonValChars e ++ ',' :: jsonArrElems rest

def jsonObjFields : Bool → List (String × JSVal) → List Char
  | _, [] => []
  | first, (_, .vundef) :: rest => jsonObjFields first rest
  | first, (k, v) :: rest =>
    (if first then [] else [',']) ++
      ('"' :: (jsonEscape k.data ++ '"' :: ':' :: jsonValChars v)) ++
      jsonObjFields false rest

end

def jsonStringify (v : JSVal) : String := String.mk (jsonValChars v)

def indentChars (n : ℕ) : List Char := List.replicate n ' '

mutual

/-- Two-space-indented pretty printing, as the JSON and per-file writers
invoke it.  Only its presence in the writer output matters for the
claims; no claim constrains its exact text. -/
def jsonPrettyVal : ℕ → JSVal → List Char
  | _, .vundef => "null".data
  | _, .vnull => "null".data
  | _, .vbool b => if b then "true".data else "false".data
  | _, .vnum (.rat q) => ratRenderChars q
  | _, .vnum .inf => "null".data
  | _, .vnum .negInf => "null".data
  | _, .vstr s => '"' :: (jsonEscape s.data ++ ['"'])
  | d, .varr es =>
    if es.isEmpty then "[]".data
    else
      '[' :: '\n' ::
        (jsonPrettyArr (d + 1) es ++ '\n' :: (indentChars (2 * d) ++ [']']))
  | d, .vobj fs =>
    if hasKeptField fs then
      '{' :: '\n' ::
        (jsonPrettyObj (d + 1) true fs ++ '\n' :: (indentChars (2 * d) ++ ['}']))
    else "{}".data

def jsonPrettyArr : ℕ → List JSVal → List Char
  | _, [] => []
  | d, [e] => indentChars (2 * d) ++ jsonPrettyVal d e
  | d, e :: rest =>
    indentChars (2 * d) ++ jsonPrettyVal d e ++ ',' :: '\n' :: jsonPrettyArr d rest

def jsonPrettyObj : ℕ → Bool → List (String × JSVal) → List Char
  | _, _, [] => []
  | d, first, (_, .vundef) :: rest => jsonPrettyObj d first rest
  | d, first, (k, v) :: rest =>
    (if first then [] else [',', '\n']) ++
      (indentChars (2 * d) ++
        ('"' :: (jsonEscape k.data ++ '"' :: ':' :: ' ' :: jsonPrettyVal d v))) ++
      jsonPrettyObj d false rest

end

def jsonStringifyPretty (v : JSVal) : List Char := jsonPrettyVal 0 v

/-! ### `parseCSV` (`src/utils/imageCropping.js`, lines 343-383)

The authoritative revision: the header row is split naively on commas
and trimmed; each data row is scanned character by character with a
quote flag; every field is trimmed; a nonempty field accepted by
`!isNaN` becomes a number via `parseFloat`, anything else stays a
string. -/

/-- The per-character scan of one data line: `"` toggles the quote flag
and is never emitted, `,` outside quotes ends the field, everything else
accumulates.  `cur` holds the current field in reverse. -/
def scanGo : List Char → List Char → Bool → List String
  | [], cur, _ => [String.mk (trimChars cur.reverse)]
  | c :: rest, cur, inQ =>
    if c = '"' then scanGo rest cur (!inQ)
    else if c = ',' && !inQ then String.mk (trimChars cur.reverse) :: scanGo rest [] inQ
    else scanGo rest (c :: cur) inQ

def splitCSVLine (cs : List Char) : List String := scanGo cs [] false

/-- `obj[header] = (value && !isNaN(value)) ? parseFloat(value) : value`. -/
def parseVal : Option String → JSVal
  | none => .vundef
  | some v => if !v.data.isEmpty && jsIsNumeric v then .vnum (jsParseFloat v) else .vstr v

/-- The `headers.forEach` loop: assign one parsed field per header name,
in header order (duplicate headers overwrite in place, as JS objects
do). -/
def buildObjGo (acc : Obj) : List String → List String → Obj
  | [], _ => acc
  | h :: hs, vs => buildObjGo (objInsert acc h (parseVal vs.head?)) hs vs.tail

def buildObj (headers vals : List String) : Obj := buildObjGo [] headers vals

def parseCSVchars (cs : List Char) : List Obj :=
  let lines := splitOnChar '\n' (trimChars cs)
  match lines with
  | [] => []
  | l0 :: rest =>
    let headers := (splitOnChar ',' l0).map (fun h => String.mk (trimChars h))
    rest.map (fun line => buildObj headers (splitCSVLine line))

def parseCSV (s : String) : List Obj := parseCSVchars s.data

/-! ### Flattened-CSV row serialization
(`src/unnamed/part_000` = `streamingWriter.js`, lines 121-138) -/

/-- Double every `"` (the `value.replace` step of the row serializer). -/
def escQuote : List Char → List Char
  | [] => []
  | c :: rest =>
    if c = '"' then '"' :: '"' :: escQuote rest else c :: escQuote rest

/-- One cell: a string containing `,` or `"` is quote-wrapped with inner
quotes doubled; `null`/`undefined` render empty (`value ?? ''`); other
values render via string coercion (numbers by `toString`). -/
def csvEscapeVal (v : JSVal) : List Char :=
  match v with
  | .vstr s =>
    if s.data.any (fun c => c = ',') || s.data.any (fun c => c = '"') then
      '"' :: (escQuote s.data ++ ['"'])
    else s.data
  | .vnull => []
  | .vundef => []
  | v => (jsToString v).data

/-- One data row against a fixed header list:
`headers.map(h => escape(row[h])).join(',')`. -/
def serializeRowChars (headers : List String) (r : Obj) : List Char :=
  joinWithChar ',' (headers.map (fun h => csvEscapeVal (objGet r h)))

/-- Serialize records the way the Flattened-CSV sink writes rows: the
header line is the first record's key list, then every record against
that fixed header list, each line ending in a newline. -/
def serializeCSVchars (records : List Obj) : List Char :=
  match records with
  | [] => []
  | r0 :: _ =>
    let headers := r0.map (fun p => p.1)
    joinWithChar '\n'
      (joinWithChar ',' (headers.map String.data) ::
        records.map (serializeRowChars headers)) ++ ['\n']

def serializeCSV (records : List Obj) : String := String.mk (serializeCSVchars records)

/-! ### Invariants of parsed CSV data (for the round-trip analysis)

These predicates describe exactly the values `parseCSV` produces; they
are established from the code, not assumed. -/

/-- The reduced denominator is of the form `2^a·5^b` (equivalently,
divides a power of ten).  Every rational `parseFloat` builds is of the
shape `±m·10^e`, so its reduced denominator has this form; it is exactly
the guard under which `ratRenderChars` prints positionally. -/
def numClean : JNum → Bool
  | .rat q => 2 ^ powDiv 2 q.den * 5 ^ powDiv 5 q.den == q.den
  | .inf => true
  | .negInf => true

/-- A field value as `parseCSV` produces it: either a trim-stable,
quote-free, newline-free string that is empty or non-numeric, or a
number with a ten-smooth denominator. -/
def valClean : JSVal → Bool
  | .vstr s => trimChars s.data == s.data && !s.data.contains '"' &&
      !s.data.contains '\n' && (s.data.isEmpty || !jsIsNumeric s)
  | .vnum n => numClean n
  | _ => false

/-- The characters a serialized cell contributes back to the scanner
once any wrapping quotes are stripped. -/
def cellContent : JSVal → List Char
  | .vstr s => s.data
  | .vnum n => (numToString n).data
  | _ => []

/-- The header list `parseCSV` derives from the first line. -/
def csvHeadersOf (t : String) : List String :=
  match splitOnChar '\n' (trimChars t.data) with
  | [] => []
  | l0 :: _ => (splitOnChar ',' l0).map (fun h => String.mk (trimChars h))

/-- The data lines `parseCSV` maps over. -/
def csvDataLines (t : String) : List (List Char) :=
  (splitOnChar '\n' (trimChars t.data)).tail

/-- The record the `headers.forEach` loop builds, written as a direct
zip of headers with parsed field values (`buildObjGo` reduces to this
when the headers are distinct). -/
def buildList : List String → List String → Obj
  | [], _ => []
  | h :: hs, vs => (h, parseVal vs.head?) :: buildList hs vs.tail

/-! ### The result item forwarded to a sink

`App.jsx` forwards each `batch-result` message as
`{filename, result, rawResult, time, error}`; fields absent from the
message are `undefined`. -/

structure ResultItem where
  filename : String
  result : JSVal
  rawResult : JSVal
  time : ℚ
  error : JSVal

/-! ### StreamingJSONWriter (`part_000`, lines 9-53)

State: the writable handle is open or closed (`null`), the
first-item flag, the task recorded at `initialize`, and the bytes
written so far. -/

structure JSONWriterState where
  writable : Bool
  isFirst : Bool
  task : JSVal
  out : List Char

/-- Constructor state: no writable handle yet, `task` not set. -/
def jsonNew : JSONWriterState := ⟨false, true, .vundef, []⟩

/-- `initialize(task)`: create the writable (truncating the file),
write the opening bracket, record the task, reset the flag. -/
def jsonInit (task : JSVal) : JSONWriterState := ⟨true, true, task, "[\n".data⟩

/-- The per-item record `{filename, task, result: rawResult || result,
time, ...(error && {error})}`. -/
def resultObject (task : JSVal) (item : ResultItem) : List (String × JSVal) :=
  [("filename", .vstr item.filename), ("task", task),
   ("result", if truthy item.rawResult then item.rawResult else item.result),
   ("time", .vnum (.rat item.time))] ++
  (if truthy item.error then [("error", item.error)] else [])

/-- Re-indent a pretty payload to sit inside the array:
`.replace` of every newline by newline plus two spaces. -/
def indentNewlines : List Char → List Char
  | [] => []
  | '\n' :: rest => '\n' :: ' ' :: ' ' :: indentNewlines rest
  | c :: rest => c :: indentNewlines rest

/-- `writeResult` of the JSON sink: throws when not initialized,
otherwise writes a separator before every item but the first, then the
indented record. -/
def jsonWrite (s : JSONWriterState) (item : ResultItem) : Except String JSONWriterState :=
  if !s.writable then .error "Writer not initialized"
  else
    .ok { s with
      isFirst := false,
      out := s.out ++ (if s.isFirst then [] else ",\n".data) ++
        "  ".data ++ indentNewlines (jsonStringifyPretty (.vobj (resultObject s.task item))) }

/-- `finalize` of the JSON sink: returns silently when there is no
writable; otherwise writes the closing bracket, closes the file and
nulls the handle. -/
def jsonFinalize (s : JSONWriterState) : Except String JSONWriterState :=
  if !s.writable then .ok s
  else .ok { s with writable := false, out := s.out ++ "\n]\n".data }

/-! ### StreamingCSVWriter (`part_000`, lines 58-148) -/

structure CSVWriterState where
  writable : Bool
  headers : Option (List String)
  rowId : ℕ
  out : List Char

def csvNew : CSVWriterState := ⟨false, none, 0, []⟩

/-- `initialize()`: open the writable, clear headers and the row
counter. -/
def csvInit : CSVWriterState := ⟨true, none, 0, []⟩

/-- One flattened row of the quad-box branch. -/
def quadRow (rid : ℕ) (fname : String) (label qb : JSVal) : Obj :=
  [("id", .vnum (.rat rid)), ("filename", .vstr fname), ("label", label),
   ("x1", jsIndex qb 0), ("y1", jsIndex qb 1),
   ("x2", jsIndex qb 2), ("y2", jsIndex qb 3),
   ("x3", jsIndex qb 4), ("y3", jsIndex qb 5),
   ("x4", jsIndex qb 6), ("y4", jsIndex qb 7)]

/-- One flattened row of the axis-box branch. -/
def bboxRow (rid : ℕ) (fname : String) (label bb : JSVal) : Obj :=
  [("id", .vnum (.rat rid)), ("filename", .vstr fname), ("label", label),
   ("xmin", jsIndex bb 0), ("ymin", jsIndex bb 1),
   ("xmax", jsIndex bb 2), ("ymax", jsIndex bb 3)]

/-- Spread of a value into object fields, as in `{id: …, ...r}`:
objects contribute their fields, strings their indexed characters,
other primitives nothing. -/
def spreadFields : JSVal → List (String × JSVal)
  | .vobj fs => fs
  | .vstr s => (s.data.enum.map (fun p => (Nat.repr p.1, JSVal.vstr (String.mk [p.2]))))
  | _ => []

def objAssignAll (o : Obj) : List (String × JSVal) → Obj
  | [] => o
  | (k, v) :: rest => objAssignAll (objInsert o k v) rest

/-- `{id: rowId++, ...r}`: the `id` field is inserted first, then the
spread assigns the fields of `r` over it (an `id` on `r` overwrites the
counter value while keeping position 0). -/
def spreadWithId (rid : ℕ) (r : JSVal) : Obj :=
  objAssignAll [("id", .vnum (.rat rid))] (spreadFields r)

/-- The flattening step of `writeResult` (lines 77-119): quad-box
detections, axis-box detections, array results with a fresh `id`
spread-merged into each element, stringified objects, or a primitive
result, each with the running row counter. -/
def flattenWriteRows (item : ResultItem) (rid : ℕ) : List Obj × ℕ :=
  if truthy item.result && truthy (jsGetField item.result "labels") &&
      truthy (jsGetField item.result "quad_boxes") then
    ((List.range (jsLen (jsGetField item.result "labels"))).map
        (fun i => quadRow (rid + i) item.filename
          (jsIndex (jsGetField item.result "labels") i)
          (jsIndex (jsGetField item.result "quad_boxes") i)),
      rid + jsLen (jsGetField item.result "labels"))
  else if truthy item.result && truthy (jsGetField item.result "labels") &&
      truthy (jsGetField item.result "bboxes") then
    ((List.range (jsLen (jsGetField item.result "labels"))).map
        (fun i => bboxRow (rid + i) item.filename
          (jsIndex (jsGetField item.result "labels") i)
          (jsIndex (jsGetField item.result "bboxes") i)),
      rid + jsLen (jsGetField item.result "labels"))
  else
    match item.result with
    | .varr es => (es.enum.map (fun p => spreadWithId (rid + p.1) p.2), rid + es.length)
    | res =>
      if truthy res && (match res with | .vobj _ => true | .vnull => true | _ => false) then
        ([[("id", .vnum (.rat rid)), ("filename", .vstr item.filename),
           ("result", .vstr (jsonStringify res))]], rid + 1)
      else
        ([[("id", .vnum (.rat rid)), ("filename", .vstr item.filename),
           ("result", res)]], rid + 1)

/-- Writing one flattened row: the first row ever written fixes the
header list (its own key list, in insertion order) and emits the header
line; every row is then serialized against the fixed headers. -/
def writeFlatRow (s : CSVWriterState) (row : Obj) : CSVWriterState :=
  match s.headers with
  | none =>
    let hs := row.map (fun p => p.1)
    { s with
      headers := some hs,
      out := s.out ++ joinWithChar ',' (hs.map String.data) ++ '\n' ::
        (serializeRowChars hs row ++ ['\n']) }
  | some hs =>
    { s with out := s.out ++ serializeRowChars hs row ++ ['\n'] }

/-- `writeResult` of the CSV sink. -/
def csvWrite (s : CSVWriterState) (item : ResultItem) : Except String CSVWriterState :=
  if !s.writable then .error "Writer not initialized"
  else
    .ok ((flattenWriteRows item s.rowId).1.foldl writeFlatRow
      { s with rowId := (flattenWriteRows item s.rowId).2 })

/-- `finalize` of the CSV sink: silent when there is no writable,
otherwise closes the file and nulls the handle. -/
def csvFinalize (s : CSVWriterState) : Except String CSVWriterState :=
  if !s.writable then .ok s
  else .ok { s with writable := false }

/-! ### StreamingIndividualWriter (`part_000`, lines 153-186)

The directory handle is set by the constructor, not by `initialize`;
`initialize` records only the task. -/

structure IndWriterState where
  dirHandle : Bool
  task : JSVal
  files : List (String × List Char)

def indNew (hasDir : Bool) : IndWriterState := ⟨hasDir, .vnull, []⟩

def indInit (s : IndWriterState) (task : JSVal) : IndWriterState :=
  { s with task := task }

/-- `writeResult` of the per-item sink: checks only the constructor-set
directory handle, then writes `<filename>.json`. -/
def indWrite (s : IndWriterState) (item : ResultItem) : Except String IndWriterState :=
  if !s.dirHandle then .error "Writer not initialized"
  else
    .ok { s with
      files := s.files ++
        [(item.filename ++ ".json", jsonStringifyPretty (.vobj (resultObject s.task item)))] }

/-- `finalize` of the per-item sink: nothing to close. -/
def indFinalize (s : IndWriterState) : Except String IndWriterState := .ok s

/-! ### BatchRunner (`src/worker.js` lines 124-224, `src/App.jsx`
lines 102-115) -/

structure BatchImage where
  name : String
  url : String

inductive WorkerMsg where
  | progress (current total : ℕ) (filename : String)
  | result (filename : String) (output rawResult : JSVal) (time : ℚ) (error : JSVal)
  | complete (total : ℕ) (totalTime : ℚ)

/-- `Math.round`: half-up rounding.  Non-numeric inputs would be `NaN`
in JS; the detection outputs rounded here are numbers, other values
pass through unmodeled. -/
def roundJ : JSVal → JSVal
  | .vnum (.rat q) => .vnum (.rat ((⌊q + 1 / 2⌋ : ℤ) : ℚ))
  | .vnum .inf => .vnum .inf
  | .vnum .negInf => .vnum .negInf
  | v => v

/-- The conversion of a post-processed result into the flat `output`
sent with a `batch-result` message (lines 173-192): detection-style
results with `bboxes` become one row per box with rounded integer
coordinates; anything else passes through as `result[task]`. -/
def batchOutput (name task : String) (res : JSVal) : JSVal :=
  let rt := jsGetField res task
  if truthy rt && truthy (jsGetField rt "bboxes") then
    let bbs := jsGetField rt "bboxes"
    let labels := jsGetField rt "labels"
    .varr ((List.range (jsLen bbs)).map (fun j =>
      .vobj [("label", if truthy labels then jsIndex labels j else .vstr ""),
             ("xmin", roundJ (jsIndex (jsIndex bbs j) 0)),
             ("ymin", roundJ (jsIndex (jsIndex bbs j) 1)),
             ("xmax", roundJ (jsIndex (jsIndex bbs j) 2)),
             ("ymax", roundJ (jsIndex (jsIndex bbs j) 3)),
             ("image", .vstr name)]))
  else rt

/-- The inference capability: for the item at a given position, either a
post-processed result together with the elapsed wall-clock time, or the
message of the thrown error. -/
def InferCap : Type := ℕ → BatchImage → Except String (JSVal × ℚ)

/-- The message sequence of the per-item loop of `runBatch`: progress
before each item; on success a `batch-result` with the flat output, the
raw `result[task]` and the elapsed time; on a throw a `batch-result`
carrying `error.message` and `time: 0`; the loop always continues. -/
def runBatchGo (infer : InferCap) (task : String) (total : ℕ) :
    ℕ → List BatchImage → List WorkerMsg
  | _, [] => []
  | i, img :: rest =>
    .progress (i + 1) total img.name ::
      (match infer i img with
       | .ok (res, t) =>
         .result img.name (batchOutput img.name task res) (jsGetField res task) t .vundef
       | .error msg => .result img.name .vundef .vundef 0 (.vstr msg)) ::
      runBatchGo infer task total (i + 1) rest

/-- `processedCount`: successes only. -/
def countSuccesses (infer : InferCap) : ℕ → List BatchImage → ℕ
  | _, [] => 0
  | i, img :: rest =>
    (match infer i img with
     | .ok _ => 1
     | .error _ => 0) + countSuccesses infer (i + 1) rest

/-- `runBatch`: the item loop followed by the completion message.  The
total wall-clock duration is an opaque input. -/
def runBatch (infer : InferCap) (images : List BatchImage) (task : String)
    (totalTime : ℚ) : List WorkerMsg :=
  runBatchGo infer task images.length 0 images ++
    [.complete (countSuccesses infer 0 images) totalTime]

/-- The `batch-result` handler of `App.jsx`: every such message is
forwarded to the sink as one `ResultItem`, in arrival order. -/
def sinkWrites (msgs : List WorkerMsg) : List ResultItem :=
  msgs.filterMap (fun m =>
    match m with
    | .result f out raw t err => some ⟨f, out, raw, t, err⟩
    | _ => none)

/-! ### RegionExtractor
(`cropAndSaveImagesStreaming`, `src/utils/imageCropping.js` lines
393-509, with `cropRegion` lines 282-336)

A source image is its name, its decoded dimensions, and whether
decoding succeeds (`loadImageToCanvas` may reject).  Crop blobs and
file writes are modeled by recording the target directory and file
name; a crop on coordinates that are not finite numbers produces `NaN`
canvas dimensions, whose blob creation fails — modeled as the same
record-level failure (`±Infinity` coordinates, which a CSV cell
`Infinity` could produce, are folded into this failure case as well;
no claim touches them). -/

structure ImgFile where
  name : String
  width : ℚ
  height : ℚ
  decodeOk : Bool

structure CropStats where
  saved : ℕ
  failed : ℕ
  skipped : ℕ
deriving Repr, DecidableEq

/-- `row.image || row.filename`. -/
def rowNameVal (row : Obj) : JSVal :=
  if truthy (objGet row "image") then objGet row "image" else objGet row "filename"

/-- Append a record to its group, creating the group on first sight
(JS object key order: first-occurrence order). -/
def groupAdd (gs : List (String × List Obj)) (k : String) (row : Obj) :
    List (String × List Obj) :=
  if gs.any (fun p => p.1 == k) then
    gs.map (fun p => if p.1 == k then (p.1, p.2 ++ [row]) else p)
  else gs ++ [(k, [row])]

/-- The grouping `forEach`: records whose `image || filename` is falsy
are returned over (dropped without touching any counter). -/
def groupRecordsGo (gs : List (String × List Obj)) : List Obj → List (String × List Obj)
  | [] => gs
  | row :: rest =>
    if truthy (rowNameVal row) then
      groupRecordsGo (groupAdd gs (jsToString (rowNameVal row)) row) rest
    else groupRecordsGo gs rest

def groupRecords (rows : List Obj) : List (String × List Obj) :=
  groupRecordsGo [] rows

/-- The image map built by `forEach` assignment: the last file with a
given name wins. -/
def findImage (files : List ImgFile) (name : String) : Option ImgFile :=
  (files.filter (fun f => f.name == name)).getLast?

/-- A coordinate as used by the canvas arithmetic: only a finite number
yields defined clamping. -/
def coordQ : JSVal → Option ℚ
  | .vnum (.rat q) => some q
  | _ => none

/-- The axis-box branch of `cropRegion`: clamp to the image, fail on a
non-positive dimension.  A missing (`NaN`) coordinate fails at blob
creation. -/
def cropRegionAxis (w h : ℚ) (xmin ymin xmax ymax : Option ℚ) : Except String Unit :=
  match xmin, ymin, xmax, ymax with
  | some x0, some y0, some x1, some y1 =>
    let left := max 0 (min x0 w)
    let top := max 0 (min y0 h)
    let right := max 0 (min x1 w)
    let bottom := max 0 (min y1 h)
    if right - left ≤ 0 || bottom - top ≤ 0 then .error "Invalid crop dimensions"
    else .ok ()
  | _, _, _, _ => .error "Failed to create blob"

/-- The quad-box branch of `cropRegion`: bounding rectangle of the four
vertices, then the axis-box branch. -/
def cropRegionQuad (w h : ℚ)
    (x1 y1 x2 y2 x3 y3 x4 y4 : Option ℚ) : Except String Unit :=
  match x1, y1, x2, y2, x3, y3, x4, y4 with
  | some a1, some b1, some a2, some b2, some a3, some b3, some a4, some b4 =>
    cropRegionAxis w h
      (some (min (min a1 a2) (min a3 a4)))
      (some (min (min b1 b2) (min b3 b4)))
      (some (max (max a1 a2) (max a3 a4)))
      (some (max (max b1 b2) (max b3 b4)))
  | _, _, _, _, _, _, _, _ => .error "Failed to create blob"

def hasQuadKeys (row : Obj) : Bool :=
  hasKeyName row "x1" && hasKeyName row "y1" && hasKeyName row "x2" && hasKeyName row "y2" &&
  hasKeyName row "x3" && hasKeyName row "y3" && hasKeyName row "x4" && hasKeyName row "y4"

def hasAxisKeys (row : Obj) : Bool :=
  hasKeyName row "xmin" && hasKeyName row "ymin" &&
  hasKeyName row "xmax" && hasKeyName row "ymax"

/-- `const score = bbox.score || 1.0`. -/
def scoreVal (row : Obj) : JSVal :=
  if truthy (objGet row "score") then objGet row "score" else .vnum (.rat 1)

def jnumLt (a b : JNum) : Bool :=
  match a, b with
  | .rat x, .rat y => decide (x < y)
  | .rat _, .inf => true
  | .negInf, .rat _ => true
  | .negInf, .inf => true
  | _, _ => false

/-- `ToNumber` coercion for the comparison `score < 0.5`.  `none` is
`NaN` (every comparison false).  Array and object coercion via
`toString` is not modeled: such a score cannot come out of `parseCSV`. -/
def jsToNumberOpt : JSVal → Option JNum
  | .vnum n => some n
  | .vstr s =>
    let cs := trimChars s.data
    if cs.isEmpty then some (.rat 0)
    else if isRadixIntOk cs || !(jsStrNumericBody cs) then none
    else some (parseFloatChars cs)
  | .vbool b => some (.rat (if b then 1 else 0))
  | .vnull => some (.rat 0)
  | _ => none

/-- `v < 0.5` with JS coercion.  (A radix literal score string such as
`0x1` would coerce through `Number`, not `parseFloat`; it is treated as
`NaN` here, which no `parseCSV`-produced row can exercise.) -/
def jsLtHalf (v : JSVal) : Bool :=
  match jsToNumberOpt v with
  | some n => jnumLt n (.rat (mkRat 1 2))
  | none => false

def addStats (a b : CropStats) : CropStats :=
  ⟨a.saved + b.saved, a.failed + b.failed, a.skipped + b.skipped⟩

/-- `filename.split('.')[0]`. -/
def baseNameOf (filename : String) : String :=
  String.mk ((splitOnChar '.' filename.data).headD [])

/-- The crop attempt of one record, after the score gate: determine the
bbox format (quad keys first, then axis keys, else an unknown-format
skip), crop, and on success record the write
`<base>/<base>_<id-or-index>.jpg` (the id is taken from the record when
present, else the index within the group). -/
def processRecord (w h : ℚ) (filename : String) (idx : ℕ) (row : Obj) :
    CropStats × List (String × String) :=
  if jsLtHalf (scoreVal row) then (⟨0, 0, 1⟩, [])
  else if hasQuadKeys row then
    match cropRegionQuad w h
      (coordQ (objGet row "x1")) (coordQ (objGet row "y1"))
      (coordQ (objGet row "x2")) (coordQ (objGet row "y2"))
      (coordQ (objGet row "x3")) (coordQ (objGet row "y3"))
      (coordQ (objGet row "x4")) (coordQ (objGet row "y4")) with
    | .ok _ =>
      let base := baseNameOf filename
      let imageId := match objGet row "id" with
        | .vundef => Nat.repr idx
        | v => jsToString v
      (⟨1, 0, 0⟩, [(base, base ++ "_" ++ imageId ++ ".jpg")])
    | .error _ => (⟨0, 1, 0⟩, [])
  else if hasAxisKeys row then
    match cropRegionAxis w h
      (coordQ (objGet row "xmin")) (coordQ (objGet row "ymin"))
      (coordQ (objGet row "xmax")) (coordQ (objGet row "ymax")) with
    | .ok _ =>
      let base := baseNameOf filename
      let imageId := match objGet row "id" with
        | .vundef => Nat.repr idx
        | v => jsToString v
      (⟨1, 0, 0⟩, [(base, base ++ "_" ++ imageId ++ ".jpg")])
    | .error _ => (⟨0, 1, 0⟩, [])
  else (⟨0, 0, 1⟩, [])

/-- The record loop of one decoded group. -/
def processGroupRecords (w h : ℚ) (filename : String) :
    ℕ → List Obj → CropStats × List (String × String)
  | _, [] => (⟨0, 0, 0⟩, [])
  | idx, row :: rest =>
    match processRecord w h filename idx row with
    | (st, ws) =>
      match processGroupRecords w h filename (idx + 1) rest with
      | (st2, ws2) => (addStats st st2, ws ++ ws2)

/-- One group: a missing image skips all its records with no decode; a
failing decode counts the whole group as failed, record failures stay
record-local. -/
def processGroup (files : List ImgFile) (filename : String) (rows : List Obj) :
    CropStats × List (String × String) :=
  match findImage files filename with
  | none => (⟨0, 0, rows.length⟩, [])
  | some f =>
    if f.decodeOk then processGroupRecords f.width f.height filename 0 rows
    else (⟨0, rows.length, 0⟩, [])

def processGroups (files : List ImgFile) :
    List (String × List Obj) → CropStats × List (String × String)
  | [] => (⟨0, 0, 0⟩, [])
  | (fn, rows) :: rest =>
    match processGroup files fn rows with
    | (st, ws) =>
      match processGroups files rest with
      | (st2, ws2) => (addStats st st2, ws ++ ws2)

/-- `cropAndSaveImagesStreaming`: group by `image || filename`, then
process each group in first-occurrence order, returning the aggregate
`{saved, failed, skipped}` and the crop files written. -/
def cropAndSaveImagesStreaming (csvData : List Obj) (imageFiles : List ImgFile) :
    CropStats × List (String × String) :=
  processGroups imageFiles (groupRecords csvData)

/-! ### Spec-side descriptions used by the claims -/

/-- Spec-side description for C3: the `ResultItem` the sink must
receive for the input at a given position — on success the flat output,
raw result and elapsed time; on a throw the error message with
`time = 0`. -/
def batchSinkSpec (infer : InferCap) (task : String) : ℕ → List BatchImage → List ResultItem
  | _, [] => []
  | i, img :: rest =>
    (match infer i img with
     | .ok (res, t) =>
       ⟨img.name, batchOutput img.name task res, jsGetField res task, t, .vundef⟩
     | .error msg => ⟨img.name, .vundef, .vundef, 0, .vstr msg⟩) ::
      batchSinkSpec infer task (i + 1) rest

/-- Spec-side check for C9: stripped of JSON whitespace, the text is
exactly an empty array. -/
def isEmptyJSONArrayText (cs : List Char) : Bool :=
  cs.filter (fun c => !(c = ' ' || c = '\t' || c = '\n' || c = '\r')) == ['[', ']']

/-- A whole batch through the CSV sink, from a fresh `initialize`. -/
def csvRun (items : List ResultItem) : Except String CSVWriterState :=
  items.foldlM csvWrite csvInit

/-- All flattened rows of a batch, with the row counter threaded in
order. -/
def flattenAll : List ResultItem → ℕ → List Obj
  | [], _ => []
  | it :: rest, rid =>
    (flattenWriteRows it rid).1 ++ flattenAll rest (flattenWriteRows it rid).2

/-- Spec-side description of the Flattened-CSV file (for C4): the first
row fixes the header list from its own key set; every row is then
serialized against that fixed header list. -/
def csvSpecOutput (rows : List Obj) : List Char :=
  match rows with
  | [] => []
  | r0 :: _ =>
    let hs := r0.map (fun p => p.1)
    joinWithChar ',' (hs.map String.data) ++ '\n' ::
      (rows.map (fun r => serializeRowChars hs r ++ ['\n'])).flatten

/-! ### Lemmas about the embedded definitions -/

theorem splitOnChar_ne_nil (sep : Char) (cs : List Char) :
    splitOnChar sep cs ≠ [] := by
  induction cs with
  | nil => simp [splitOnChar]
  | cons c rest ih =>
    simp only [splitOnChar]
    split
    · simp
    · cases h : splitOnChar sep rest <;> simp

theorem splitOnChar_sep_free (sep : Char) (cs : List Char) :
    ∀ p ∈ splitOnChar sep cs, sep ∉ p := by
  induction cs with
  | nil => simp [splitOnChar]
  | cons c rest ih =>
    intro p hp
    simp only [splitOnChar] at hp
    split at hp
    · rcases List.mem_cons.mp hp with h | h
      · simp [h]
      · exact ih p h
    · rename_i hne
      cases h : splitOnChar sep rest with
      | nil => exact absurd h (splitOnChar_ne_nil sep rest)
      | cons q qs =>
        rw [h] at hp
        rcases List.mem_cons.mp hp with h2 | h2
        · subst h2
          have hq : sep ∉ q := ih q (h ▸ List.mem_cons_self q qs)
          simp only [List.mem_cons]
          rintro (rfl | hmem)
          · exact hne rfl
          · exact hq hmem
        · exact ih p (h ▸ List.mem_cons_of_mem q h2)

theorem splitOnChar_append_sep (sep : Char) (xs ys : List Char)
    (hxs : sep ∉ xs) :
    splitOnChar sep (xs ++ sep :: ys) = xs :: splitOnChar sep ys := by
  induction xs with
  | nil => simp [splitOnChar]
  | cons c rest ih =>
    have hc : c ≠ sep := fun h => hxs (h ▸ List.mem_cons_self c rest)
    have hrest : sep ∉ rest := fun h => hxs (List.mem_cons_of_mem c h)
    show splitOnChar sep (c :: (rest ++ sep :: ys)) = _
    simp only [splitOnChar, if_neg hc, ih hrest]

theorem splitOnChar_of_sep_free (sep : Char) (cs : List Char)
    (h : sep ∉ cs) : splitOnChar sep cs = [cs] := by
  induction cs with
  | nil => simp [splitOnChar]
  | cons c rest ih =>
    have hc : c ≠ sep := fun hh => h (hh ▸ List.mem_cons_self c rest)
    have hrest : sep ∉ rest := fun hh => h (List.mem_cons_of_mem c hh)
    simp [splitOnChar, if_neg hc, ih hrest]

/-- Splitting undoes joining when no piece contains the separator. -/
theorem splitOnChar_joinWithChar (sep : Char) (ps : List (List Char))
    (hps : ∀ p ∈ ps, sep ∉ p) (hne : ps ≠ []) :
    splitOnChar sep (joinWithChar sep ps) = ps := by
  induction ps with
  | nil => exact absurd rfl hne
  | cons p rest ih =>
    cases rest with
    | nil =>
      simp only [joinWithChar]
      exact splitOnChar_of_sep_free sep p (hps p (List.mem_cons_self p []))
    | cons q qs =>
      have hp : sep ∉ p := hps p (List.mem_cons_self p (q :: qs))
      have : joinWithChar sep (p :: q :: qs) = p ++ sep :: joinWithChar sep (q :: qs) := rfl
      rw [this, splitOnChar_append_sep sep p _ hp,
        ih (fun r hr => hps r (List.mem_cons_of_mem p hr)) (by simp)]

theorem dropWhile_dropWhile (p : Char → Bool) (cs : List Char) :
    (cs.dropWhile p).dropWhile p = cs.dropWhile p := by
  induction cs with
  | nil => simp
  | cons c rest ih =>
    by_cases h : p c
    · simpa [List.dropWhile_cons, h] using ih
    · simp [List.dropWhile_cons, h]

/-- A list whose first and last characters are not whitespace is left
unchanged by trimming. -/
theorem trimChars_of_no_ws_ends (cs : List Char)
    (hhead : ∀ c, cs.head? = some c → isWS c = false)
    (hlast : ∀ c, cs.getLast? = some c → isWS c = false) :
    trimChars cs = cs := by
  have h1 : cs.dropWhile isWS = cs := by
    cases cs with
    | nil => simp
    | cons c rest => simp [List.dropWhile_cons, hhead c rfl]
  have h2 : cs.reverse.dropWhile isWS = cs.reverse := by
    cases hrev : cs.reverse with
    | nil => simp
    | cons c rest =>
      have : cs.getLast? = some c := by
        rw [← List.head?_reverse, hrev]; rfl
      simp [List.dropWhile_cons, hlast c this]
  unfold trimChars
  rw [h1, h2, List.reverse_reverse]

theorem trimChars_sublist (cs : List Char) :
    (trimChars cs).Sublist cs := by
  unfold trimChars
  have h1 : ((cs.dropWhile isWS).reverse.dropWhile isWS).Sublist (cs.dropWhile isWS).reverse :=
    List.dropWhile_sublist _
  have h2 : ((cs.dropWhile isWS).reverse.dropWhile isWS).reverse.Sublist (cs.dropWhile isWS) := by
    simpa using h1.reverse
  exact h2.trans (List.dropWhile_sublist _)

theorem mem_trimChars {c : Char} {cs : List Char}
    (h : c ∈ trimChars cs) : c ∈ cs :=
  (trimChars_sublist cs).mem h

theorem head?_dropWhile_not_ws (cs : List Char) (c : Char)
    (h : (cs.dropWhile isWS).head? = some c) : isWS c = false := by
  induction cs with
  | nil => simp at h
  | cons d rest ih =>
    rw [List.dropWhile_cons] at h
    split at h
    · exact ih h
    · rename_i hd
      simp only [List.head?_cons, Option.some.injEq] at h
      subst h
      exact Bool.not_eq_true _ ▸ (by simpa using hd)

/-- The last character of a trimmed list is never whitespace. -/
theorem trimChars_getLast_not_ws (cs : List Char) (c : Char)
    (h : (trimChars cs).getLast? = some c) : isWS c = false := by
  unfold trimChars at h
  rw [List.getLast?_reverse] at h
  exact head?_dropWhile_not_ws _ c h

/-- The first character of a trimmed list is never whitespace. -/
theorem trimChars_head_not_ws (cs : List Char) (c : Char)
    (h : (trimChars cs).head? = some c) : isWS c = false := by
  unfold trimChars at h
  set a := cs.dropWhile isWS with ha
  have hsuffix : (a.reverse.dropWhile isWS) <:+ a.reverse := List.dropWhile_suffix _
  have hpre : (a.reverse.dropWhile isWS).reverse <+: a := by
    have := List.reverse_prefix.mpr hsuffix
    simpa using this
  obtain ⟨t, ht⟩ := hpre
  cases hb : (a.reverse.dropWhile isWS).reverse with
  | nil => rw [hb] at h; simp at h
  | cons x xs =>
    rw [hb] at h
    simp only [List.head?_cons, Option.some.injEq] at h
    have hx : a.head? = some x := by
      rw [← ht, hb]; rfl
    rw [← h]
    exact head?_dropWhile_not_ws cs x (ha ▸ hx)

/-- Trim stability: a list is unchanged by `trimChars` exactly when its
end characters are not whitespace. -/
theorem trimChars_eq_self_iff (cs : List Char) :
    trimChars cs = cs ↔
      (∀ c, cs.head? = some c → isWS c = false) ∧
      (∀ c, cs.getLast? = some c → isWS c = false) := by
  constructor
  · intro h
    constructor
    · intro c hc
      exact trimChars_head_not_ws cs c (by rw [h]; exact hc)
    · intro c hc
      exact trimChars_getLast_not_ws cs c (by rw [h]; exact hc)
  · rintro ⟨h1, h2⟩
    exact trimChars_of_no_ws_ends cs h1 h2

theorem trimChars_idem (cs : List Char) :
    trimChars (trimChars cs) = trimChars cs :=
  trimChars_of_no_ws_ends _ (trimChars_head_not_ws cs) (trimChars_getLast_not_ws cs)

theorem digitsValAux_cons (acc : ℕ) (c : Char) (rest : List Char) :
    digitsValAux acc (c :: rest) = digitsValAux (10 * acc + digitVal c) rest := rfl

theorem digitsValAux_append (acc : ℕ) (xs ys : List Char) :
    digitsValAux acc (xs ++ ys) = digitsValAux (digitsValAux acc xs) ys := by
  induction xs generalizing acc with
  | nil => rfl
  | cons c rest ih =>
    rw [List.cons_append, digitsValAux_cons, digitsValAux_cons, ih]

theorem digitsValAux_eq (acc : ℕ) (cs : List Char) :
    digitsValAux acc cs = acc * 10 ^ cs.length + digitsVal cs := by
  induction cs generalizing acc with
  | nil =>
    show acc = acc * 10 ^ (0 : ℕ) + digitsVal []
    show acc = acc * 10 ^ (0 : ℕ) + 0
    omega
  | cons c rest ih =>
    rw [digitsValAux_cons, ih]
    show _ = acc * 10 ^ (c :: rest).length + digitsValAux 0 (c :: rest)
    rw [digitsValAux_cons, ih (10 * 0 + digitVal c)]
    simp only [List.length_cons]
    ring

theorem digitsVal_reverse (cs : List Char) :
    digitsVal cs.reverse = digitsValLE cs := by
  induction cs with
  | nil => rfl
  | cons c rest ih =>
    rw [List.reverse_cons]
    unfold digitsVal
    rw [digitsValAux_append]
    show digitsValAux (digitsVal rest.reverse) [c] = _
    rw [ih]
    show 10 * digitsValLE rest + digitVal c = digitVal c + 10 * digitsValLE rest
    omega

theorem digitCh_isDigit {d : ℕ} (hd : d < 10) : isDigitCh (digitCh d) = true := by
  interval_cases d <;> decide

theorem digitVal_digitCh {d : ℕ} (hd : d < 10) : digitVal (digitCh d) = d := by
  interval_cases d <;> decide

theorem natDigitsRevAux_spec (fuel : ℕ) :
    ∀ n, n ≤ fuel →
      digitsValLE (natDigitsRevAux fuel n) = n ∧
      ∀ c ∈ natDigitsRevAux fuel n, isDigitCh c = true := by
  induction fuel with
  | zero =>
    intro n hn
    interval_cases n
    exact ⟨rfl, by simp [natDigitsRevAux]⟩
  | succ fuel ih =>
    intro n hn
    by_cases h0 : n = 0
    · subst h0
      exact ⟨rfl, by simp [natDigitsRevAux]⟩
    · have hfuel : n / 10 ≤ fuel := by
        have h1 : n / 10 < n := Nat.div_lt_self (Nat.pos_of_ne_zero h0) (by norm_num)
        omega
      obtain ⟨hv, hd⟩ := ih (n / 10) hfuel
      constructor
      · show digitsValLE (if n = 0 then [] else _) = n
        rw [if_neg h0]
        show digitVal (digitCh (n % 10)) + 10 * digitsValLE (natDigitsRevAux fuel (n / 10)) = n
        rw [hv, digitVal_digitCh (Nat.mod_lt n (by norm_num))]
        omega
      · show ∀ c ∈ (if n = 0 then [] else _), isDigitCh c = true
        rw [if_neg h0]
        intro c hc
        rcases List.mem_cons.mp hc with h | h
        · rw [h]; exact digitCh_isDigit (Nat.mod_lt n (by norm_num))
        · exact hd c h

theorem digitsVal_natToChars (n : ℕ) : digitsVal (natToChars n) = n := by
  unfold natToChars
  rw [digitsVal_reverse]
  exact (natDigitsRevAux_spec n n le_rfl).1

theorem natToChars_digits (n : ℕ) :
    ∀ c ∈ natToChars n, isDigitCh c = true := by
  intro c hc
  exact (natDigitsRevAux_spec n n le_rfl).2 c (List.mem_reverse.mp hc)

theorem digitsVal_replicate_zero (k : ℕ) (cs : List Char) :
    digitsVal (List.replicate k '0' ++ cs) = digitsVal cs := by
  induction k with
  | zero => rfl
  | succ k ih =>
    show digitsVal ('0' :: (List.replicate k '0' ++ cs)) = _
    unfold digitsVal
    show digitsValAux (10 * 0 + digitVal '0') _ = _
    have : 10 * 0 + digitVal '0' = 0 := by decide
    rw [this]
    exact ih

theorem powDivAux_spec (p : ℕ) (hp : 2 ≤ p) (fuel : ℕ) :
    ∀ i m, ¬ (p ∣ m) → m ≠ 0 → p ^ i * m ≤ fuel → powDivAux fuel p (p ^ i * m) = i := by
  induction fuel with
  | zero =>
    intro i m hpm hm hle
    exfalso
    have h1 : 0 < p ^ i := Nat.pow_pos (by omega)
    have h2 : p ^ i * m ≠ 0 := Nat.mul_ne_zero (by omega) hm
    omega
  | succ fuel ih =>
    intro i m hpm hm hle
    cases i with
    | zero =>
      simp only [powDivAux]
      split
      · rename_i hcond
        exfalso
        simp only [Bool.and_eq_true, decide_eq_true_eq, bne_iff_ne, ne_eq, beq_iff_eq] at hcond
        rw [Nat.pow_zero, Nat.one_mul] at hcond
        exact hpm (Nat.dvd_of_mod_eq_zero hcond.2)
      · rfl
    | succ i =>
      have hdvd : p ∣ p ^ (i + 1) * m := Dvd.dvd.mul_right (dvd_pow_self p (by omega)) m
      have hppos : 0 < p ^ (i + 1) := Nat.pow_pos (by omega)
      have hne : p ^ (i + 1) * m ≠ 0 := Nat.mul_ne_zero (by omega) hm
      simp only [powDivAux]
      split
      · have hdiv : p ^ (i + 1) * m / p = p ^ i * m := by
          rw [Nat.pow_succ, Nat.mul_comm (p ^ i) p, Nat.mul_assoc,
            Nat.mul_div_cancel_left _ (by omega : 0 < p)]
        rw [hdiv, ih i m hpm hm ?_]
        have hlt : p ^ i * m < p ^ (i + 1) * m := by
          have hpow : p ^ i < p ^ (i + 1) := Nat.pow_lt_pow_succ (by omega : 1 < p)
          exact (Nat.mul_lt_mul_right (Nat.pos_of_ne_zero hm)).mpr hpow
        omega
      · rename_i hcond
        exfalso
        apply hcond
        simp only [Bool.and_eq_true, decide_eq_true_eq, bne_iff_ne, ne_eq, beq_iff_eq]
        obtain ⟨k, hk⟩ := hdvd
        refine ⟨⟨hp, hne⟩, ?_⟩
        rw [hk, Nat.mul_mod_right]

theorem powDiv_spec (p : ℕ) (hp : 2 ≤ p) (i m : ℕ) (hpm : ¬ (p ∣ m)) (hm : m ≠ 0) :
    powDiv p (p ^ i * m) = i :=
  powDivAux_spec p hp (p ^ i * m) i m hpm hm le_rfl

/-! ### JS object (association list) lemmas -/

theorem objGet_cons (p : String × JSVal) (o : Obj) (k : String) :
    objGet (p :: o) k = if p.1 == k then p.2 else objGet o k := by
  by_cases h : p.1 = k
  · simp [objGet, List.find?_cons, h]
  · have hb : (p.1 == k) = false := beq_eq_false_iff_ne.mpr h
    simp [objGet, List.find?_cons, hb]

theorem hasKeyName_cons (p : String × JSVal) (o : Obj) (k : String) :
    hasKeyName (p :: o) k = ((p.1 == k) || hasKeyName o k) := by
  simp [hasKeyName]

/-- The in-place update map leaves every other key unchanged. -/
theorem objGet_mapReplace_ne (o : Obj) (k k2 : String) (v : JSVal) (h : ¬ k = k2) :
    objGet (o.map (fun p => if p.1 == k then (k, v) else p)) k2 = objGet o k2 := by
  induction o with
  | nil => rfl
  | cons p rest ih =>
    rw [List.map_cons]
    by_cases hp : p.1 = k
    · have hpb : (p.1 == k) = true := beq_iff_eq.mpr hp
      have hk2 : (k == k2) = false := beq_eq_false_iff_ne.mpr h
      have hp2 : (p.1 == k2) = false := beq_eq_false_iff_ne.mpr (by rw [hp]; exact h)
      rw [if_pos hpb, objGet_cons, objGet_cons]
      simp only [hp2, hk2, Bool.false_eq_true, if_false]
      exact ih
    · have hpb : (p.1 == k) = false := beq_eq_false_iff_ne.mpr hp
      rw [if_neg (by simp [hpb]), objGet_cons, objGet_cons, ih]

theorem objGet_append_single_ne (o : Obj) (k k2 : String) (v : JSVal) (h : ¬ k = k2) :
    objGet (o ++ [(k, v)]) k2 = objGet o k2 := by
  induction o with
  | nil =>
    have hb : (k == k2) = false := beq_eq_false_iff_ne.mpr h
    show objGet [(k, v)] k2 = objGet [] k2
    rw [objGet_cons]
    simp only [hb, Bool.false_eq_true, if_false]
  | cons p rest ih =>
    rw [List.cons_append, objGet_cons, objGet_cons, ih]

theorem objInsert_cons_ne (p : String × JSVal) (o : Obj) (k : String) (v : JSVal)
    (h : (p.1 == k) = false) :
    objInsert (p :: o) k v = p :: objInsert o k v := by
  unfold objInsert
  rw [hasKeyName_cons, h, Bool.false_or]
  by_cases h2 : hasKeyName o k
  · rw [h2]
    simp only [if_true, List.map_cons, if_neg (by simp [h] : ¬ (p.1 == k) = true)]
  · have h2f : hasKeyName o k = false := by simpa using h2
    rw [h2f]
    simp only [Bool.false_eq_true, if_false, List.cons_append]

theorem objGet_objInsert_self (o : Obj) (k : String) (v : JSVal) :
    objGet (objInsert o k v) k = v := by
  induction o with
  | nil =>
    show objGet (objInsert [] k v) k = v
    unfold objInsert
    simp only [hasKeyName, List.any_nil, Bool.false_eq_true, if_false, List.nil_append]
    rw [objGet_cons]
    simp
  | cons p rest ih =>
    by_cases hp : p.1 = k
    · have hpb : (p.1 == k) = true := beq_iff_eq.mpr hp
      unfold objInsert
      rw [hasKeyName_cons, hpb, Bool.true_or]
      simp only [if_true, List.map_cons, if_pos hpb]
      rw [objGet_cons]
      simp
    · have hpb : (p.1 == k) = false := beq_eq_false_iff_ne.mpr hp
      rw [objInsert_cons_ne p rest k v hpb, objGet_cons]
      simp only [hpb, Bool.false_eq_true, if_false]
      exact ih

theorem objGet_objInsert_ne (o : Obj) (k k2 : String) (v : JSVal) (h : ¬ k = k2) :
    objGet (objInsert o k v) k2 = objGet o k2 := by
  unfold objInsert
  by_cases h2 : hasKeyName o k
  · rw [h2]
    simp only [if_true]
    exact objGet_mapReplace_ne o k k2 v h
  · have h2f : hasKeyName o k = false := by simpa using h2
    rw [h2f]
    simp only [Bool.false_eq_true, if_false]
    exact objGet_append_single_ne o k k2 v h

/-- The key list after an insert: unchanged when the key is present,
the key appended when it is new. -/
theorem keys_objInsert (o : Obj) (k : String) (v : JSVal) :
    (objInsert o k v).map (fun p => p.1) =
      if hasKeyName o k then o.map (fun p => p.1)
      else o.map (fun p => p.1) ++ [k] := by
  unfold objInsert
  by_cases h2 : hasKeyName o k
  · rw [h2]
    simp only [if_true, List.map_map]
    apply List.map_congr_left
    intro p _
    by_cases hp : p.1 = k
    · have hpb : (p.1 == k) = true := beq_iff_eq.mpr hp
      simp [hpb, hp.symm]
    · have hpb : (p.1 == k) = false := beq_eq_false_iff_ne.mpr hp
      simp [hpb, hp]
  · have h2f : hasKeyName o k = false := by simpa using h2
    rw [h2f]
    simp

/-- Key presence is a function of the key list. -/
theorem hasKeyName_eq_keys (o : Obj) (k : String) :
    hasKeyName o k = (o.map (fun p => p.1)).any (fun s => s == k) := by
  induction o with
  | nil => rfl
  | cons p rest ih =>
    rw [hasKeyName_cons, List.map_cons, List.any_cons, ih]

theorem hasKeyName_objInsert_self (o : Obj) (k : String) (v : JSVal) :
    hasKeyName (objInsert o k v) k = true := by
  rw [hasKeyName_eq_keys, keys_objInsert]
  by_cases h2 : hasKeyName o k
  · rw [h2]
    simp only [if_true]
    rw [hasKeyName_eq_keys] at h2
    exact h2
  · have h2f : hasKeyName o k = false := by simpa using h2
    rw [h2f]
    simp

theorem hasKeyName_objInsert_ne (o : Obj) (k k2 : String) (v : JSVal) (h : ¬ k = k2) :
    hasKeyName (objInsert o k v) k2 = hasKeyName o k2 := by
  have hk2 : (k == k2) = false := beq_eq_false_iff_ne.mpr h
  rw [hasKeyName_eq_keys, keys_objInsert]
  by_cases h2 : hasKeyName o k
  · rw [h2]
    simp only [if_true]
    rw [hasKeyName_eq_keys]
  · have h2f : hasKeyName o k = false := by simpa using h2
    rw [h2f]
    simp only [Bool.false_eq_true, if_false, List.any_append, List.any_cons, List.any_nil,
      hk2, Bool.false_or, Bool.or_false]
    rw [hasKeyName_eq_keys]

theorem hasKeyName_false_iff (o : Obj) (k : String) :
    hasKeyName o k = false ↔ k ∉ o.map (fun p => p.1) := by
  rw [hasKeyName_eq_keys, ← Bool.not_eq_true, List.any_eq_true]
  simp only [beq_iff_eq]
  constructor
  · intro h hmem
    exact h ⟨k, hmem, rfl⟩
  · rintro h ⟨s, hs, rfl⟩
    exact h hs

/-- Sequential assignment over an object that already has the key: the
last assignment to the key wins; with no assignment to it the original
value stays. -/
theorem objGet_objAssignAll (fs : List (String × JSVal)) (o : Obj) (k : String)
    (hk : hasKeyName o k = true) (hnd : (fs.map (fun p => p.1)).Nodup) :
    objGet (objAssignAll o fs) k =
      if hasKeyName fs k then objGet fs k else objGet o k := by
  induction fs generalizing o with
  | nil => simp [objAssignAll, hasKeyName]
  | cons p rest ih =>
    obtain ⟨k1, v1⟩ := p
    rw [List.map_cons, List.nodup_cons] at hnd
    show objGet (objAssignAll (objInsert o k1 v1) rest) k = _
    by_cases hk1 : k1 = k
    · subst hk1
      have hrest : hasKeyName rest k1 = false :=
        (hasKeyName_false_iff rest k1).mpr hnd.1
      rw [ih (objInsert o k1 v1) (hasKeyName_objInsert_self o k1 v1) hnd.2, hrest]
      simp only [Bool.false_eq_true, if_false]
      rw [objGet_objInsert_self, hasKeyName_cons, objGet_cons]
      simp
    · rw [ih (objInsert o k1 v1) (by rw [hasKeyName_objInsert_ne o k1 k v1 hk1]; exact hk)
        hnd.2, hasKeyName_cons, objGet_cons]
      have hb : (k1 == k) = false := beq_eq_false_iff_ne.mpr hk1
      simp only [hb, Bool.false_or, Bool.false_eq_true, if_false]
      by_cases hr : hasKeyName rest k
      · rw [hr]
        simp
      · have hrf : hasKeyName rest k = false := by simpa using hr
        rw [hrf]
        simp only [Bool.false_eq_true, if_false]
        exact objGet_objInsert_ne o k1 k v1 hk1

theorem objGet_spreadWithId (rid : ℕ) (v : JSVal)
    (hnd : ((spreadFields v).map (fun p => p.1)).Nodup) :
    objGet (spreadWithId rid v) "id" =
      if hasKeyName (spreadFields v) "id" then objGet (spreadFields v) "id"
      else .vnum (.rat rid) := by
  unfold spreadWithId
  rw [objGet_objAssignAll (spreadFields v) [("id", .vnum (.rat rid))] "id" rfl hnd]
  by_cases h : hasKeyName (spreadFields v) "id"
  · rw [h]
    simp
  · have hf : hasKeyName (spreadFields v) "id" = false := by simpa using h
    rw [hf]
    simp only [Bool.false_eq_true, if_false]
    rfl

theorem objGet_quadRow_id (rid : ℕ) (fname : String) (label qb : JSVal) :
    objGet (quadRow rid fname label qb) "id" = .vnum (.rat rid) := rfl

theorem objGet_bboxRow_id (rid : ℕ) (fname : String) (label bb : JSVal) :
    objGet (bboxRow rid fname label bb) "id" = .vnum (.rat rid) := rfl

/-! ### The quote-aware field scan -/

theorem scanGo_accum_quoted (cs : List Char) (hq : '"' ∉ cs) :
    ∀ tail cur, scanGo (cs ++ tail) cur true = scanGo tail (cs.reverse ++ cur) true := by
  induction cs with
  | nil => intro tail cur; simp
  | cons c rest ih =>
    intro tail cur
    have hc : c ≠ '"' := fun h => hq (h ▸ List.mem_cons_self c rest)
    have hrest : '"' ∉ rest := fun h => hq (List.mem_cons_of_mem c h)
    show scanGo (c :: (rest ++ tail)) cur true = _
    rw [scanGo]
    rw [if_neg hc]
    have : (c = ',' && !true) = false := by simp
    rw [this]
    simp only [Bool.false_eq_true, if_false]
    rw [ih hrest tail (c :: cur)]
    simp

theorem scanGo_accum_free (cs : List Char) (hq : '"' ∉ cs) (hc : ',' ∉ cs) :
    ∀ tail cur inQ, scanGo (cs ++ tail) cur inQ = scanGo tail (cs.reverse ++ cur) inQ := by
  induction cs with
  | nil => intro tail cur inQ; simp
  | cons c rest ih =>
    intro tail cur inQ
    have hc1 : c ≠ '"' := fun h => hq (h ▸ List.mem_cons_self c rest)
    have hc2 : c ≠ ',' := fun h => hc (h ▸ List.mem_cons_self c rest)
    have hrest1 : '"' ∉ rest := fun h => hq (List.mem_cons_of_mem c h)
    have hrest2 : ',' ∉ rest := fun h => hc (List.mem_cons_of_mem c h)
    show scanGo (c :: (rest ++ tail)) cur inQ = _
    rw [scanGo, if_neg hc1]
    have : (c = ',' && !inQ) = false := by simp [hc2]
    rw [this]
    simp only [Bool.false_eq_true, if_false]
    rw [ih hrest1 hrest2 tail (c :: cur)]
    simp

theorem scanGo_nil (cur : List Char) (inQ : Bool) :
    scanGo [] cur inQ = [String.mk (trimChars cur.reverse)] := rfl

theorem scanGo_open_quote (cs cur : List Char) (inQ : Bool) :
    scanGo ('"' :: cs) cur inQ = scanGo cs cur (!inQ) := by
  rw [scanGo, if_pos rfl]

theorem scanGo_comma (cs cur : List Char) :
    scanGo (',' :: cs) cur false =
      String.mk (trimChars cur.reverse) :: scanGo cs [] false := by
  rw [scanGo]
  have h1 : (',' : Char) ≠ '"' := by decide
  rw [if_neg h1]
  simp

theorem scanGo_quoted_field (s : List Char) (hq : '"' ∉ s) (tail cur : List Char) :
    scanGo ('"' :: (s ++ '"' :: tail)) cur false = scanGo tail (s.reverse ++ cur) false := by
  rw [scanGo_open_quote, Bool.not_false, scanGo_accum_quoted s hq, scanGo_open_quote,
    Bool.not_true]

/-- The row counter advances by exactly the number of flattened rows in
every branch of the flattening. -/
theorem flattenWriteRows_counter (item : ResultItem) (rid : ℕ) :
    (flattenWriteRows item rid).2 = rid + (flattenWriteRows item rid).1.length := by
  unfold flattenWriteRows
  split
  · simp
  · split
    · simp
    · split
      · simp [List.enum_length]
      · split
        · simp
        · simp

theorem flattenAll_cons (it : ResultItem) (rest : List ResultItem) (rid : ℕ) :
    flattenAll (it :: rest) rid =
      (flattenWriteRows it rid).1 ++ flattenAll rest (flattenWriteRows it rid).2 := rfl

theorem writeFlatRow_some (w : Bool) (hs : List String) (rid : ℕ) (out : List Char)
    (row : Obj) :
    writeFlatRow ⟨w, some hs, rid, out⟩ row =
      ⟨w, some hs, rid, out ++ serializeRowChars hs row ++ ['\n']⟩ := rfl

theorem writeFlatRow_none (w : Bool) (rid : ℕ) (out : List Char) (row : Obj) :
    writeFlatRow ⟨w, none, rid, out⟩ row =
      ⟨w, some (row.map (fun p => p.1)), rid,
        out ++ joinWithChar ',' ((row.map (fun p => p.1)).map String.data) ++ '\n' ::
          (serializeRowChars (row.map (fun p => p.1)) row ++ ['\n'])⟩ := rfl

theorem foldl_writeFlatRow_some (w : Bool) (hs : List String) (rid : ℕ) :
    ∀ (rows : List Obj) (out : List Char),
    List.foldl writeFlatRow ⟨w, some hs, rid, out⟩ rows =
      ⟨w, some hs, rid,
        out ++ ((rows.map (fun r => serializeRowChars hs r ++ ['\n'])).flatten)⟩ := by
  intro rows
  induction rows with
  | nil =>
    intro out
    simp
  | cons r rest ih =>
    intro out
    rw [List.foldl_cons, writeFlatRow_some, ih]
    simp [List.append_assoc]

theorem foldl_writeFlatRow_none_cons (w : Bool) (rid : ℕ) (out : List Char) (r0 : Obj)
    (rest : List Obj) :
    List.foldl writeFlatRow ⟨w, none, rid, out⟩ (r0 :: rest) =
      ⟨w, some (r0.map (fun p => p.1)), rid, out ++ csvSpecOutput (r0 :: rest)⟩ := by
  rw [List.foldl_cons, writeFlatRow_none, foldl_writeFlatRow_some]
  unfold csvSpecOutput
  simp [List.append_assoc]

theorem csvWrite_ok (hdrs : Option (List String)) (rid : ℕ) (out : List Char)
    (item : ResultItem) :
    csvWrite ⟨true, hdrs, rid, out⟩ item =
      .ok (List.foldl writeFlatRow ⟨true, hdrs, (flattenWriteRows item rid).2, out⟩
        (flattenWriteRows item rid).1) := rfl

theorem csvRunFrom_some (hs : List String) :
    ∀ (items : List ResultItem) (rid : ℕ) (out : List Char),
    List.foldlM csvWrite ⟨true, some hs, rid, out⟩ items =
      .ok ⟨true, some hs, rid + (flattenAll items rid).length,
        out ++ ((flattenAll items rid).map (fun r => serializeRowChars hs r ++ ['\n'])).flatten⟩ := by
  intro items
  induction items with
  | nil =>
    intro rid out
    show Except.ok _ = _
    simp [flattenAll]
  | cons it rest ih =>
    intro rid out
    rw [List.foldlM_cons, csvWrite_ok, foldl_writeFlatRow_some]
    show List.foldlM csvWrite _ rest = _
    rw [ih]
    rw [flattenAll_cons]
    simp only [Except.ok.injEq, CSVWriterState.mk.injEq, true_and,
      List.length_append, List.map_append, List.flatten_append, List.append_assoc,
      flattenWriteRows_counter]
    constructor
    · omega
    · trivial

theorem csvRunFrom_none :
    ∀ (items : List ResultItem) (rid : ℕ) (out : List Char),
    List.foldlM csvWrite ⟨true, none, rid, out⟩ items =
      .ok ⟨true,
        (match flattenAll items rid with
          | [] => none
          | r0 :: _ => some (r0.map (fun p => p.1))),
        rid + (flattenAll items rid).length,
        out ++ csvSpecOutput (flattenAll items rid)⟩ := by
  intro items
  induction items with
  | nil =>
    intro rid out
    show Except.ok _ = _
    simp [flattenAll, csvSpecOutput]
  | cons it rest ih =>
    intro rid out
    rw [List.foldlM_cons, csvWrite_ok]
    rw [flattenAll_cons]
    cases hrows : (flattenWriteRows it rid).1 with
    | nil =>
      have hrid : (flattenWriteRows it rid).2 = rid := by
        rw [flattenWriteRows_counter, hrows]
        simp
      show List.foldlM csvWrite _ rest = _
      rw [List.foldl_nil, hrid, ih]
      simp
    | cons r0 rest0 =>
      rw [foldl_writeFlatRow_none_cons]
      show List.foldlM csvWrite _ rest = _
      rw [csvRunFrom_some]
      have hrid : (flattenWriteRows it rid).2 = rid + (r0 :: rest0).length := by
        rw [flattenWriteRows_counter, hrows]
      rw [hrid]
      simp only [List.cons_append, Except.ok.injEq, CSVWriterState.mk.injEq, true_and,
        List.length_append, List.length_cons]
      refine ⟨by omega, ?_⟩
      unfold csvSpecOutput
      simp [List.append_assoc]

theorem groupRecordsGo_cons (gs : List (String × List Obj)) (row : Obj) (rest : List Obj) :
    groupRecordsGo gs (row :: rest) =
      if truthy (rowNameVal row) then
        groupRecordsGo (groupAdd gs (jsToString (rowNameVal row)) row) rest
      else groupRecordsGo gs rest := rfl

/-! ### Character classes and spans (for the numeric round trip) -/

theorem digit_not_ws (c : Char) (h : isDigitCh c = true) : isWS c = false := by
  by_contra hws
  simp only [Bool.not_eq_false] at hws
  simp only [isWS, Bool.or_eq_true, decide_eq_true_eq] at hws
  rcases hws with ((((h1 | h1) | h1) | h1) | h1) | h1 <;>
    (subst h1; exact absurd h (by decide))

theorem digit_ne_special (c : Char) (h : isDigitCh c = true) :
    c ≠ ',' ∧ c ≠ '"' ∧ c ≠ '\n' ∧ c ≠ '-' ∧ c ≠ '+' ∧ c ≠ '.' := by
  refine ⟨?_, ?_, ?_, ?_, ?_, ?_⟩ <;> (rintro rfl; exact absurd h (by decide))

theorem spanP_eq_of (p : Char → Bool) :
    ∀ (xs ys : List Char), (∀ c ∈ xs, p c = true) →
      (∀ c, ys.head? = some c → p c = false) →
      spanP p (xs ++ ys) = (xs, ys) := by
  intro xs
  induction xs with
  | nil =>
    intro ys h1 h2
    cases ys with
    | nil => rfl
    | cons y ys2 =>
      show spanP p (y :: ys2) = ([], y :: ys2)
      unfold spanP
      rw [h2 y rfl]
      simp
  | cons x xs ih =>
    intro ys h1 h2
    show spanP p (x :: (xs ++ ys)) = _
    unfold spanP
    rw [h1 x (List.mem_cons_self x xs), ih ys (fun c hc => h1 c (List.mem_cons_of_mem x hc)) h2]
    rfl

theorem readSign_cons_other (c : Char) (cs : List Char) (h1 : c ≠ '-') (h2 : c ≠ '+') :
    readSign (c :: cs) = (false, c :: cs) := by
  unfold readSign
  split
  · rename_i heq
    simp only [List.cons.injEq] at heq
    exact absurd heq.1 h1
  · rename_i heq
    simp only [List.cons.injEq] at heq
    exact absurd heq.1 h2
  · rfl

theorem startsWith_infinity_of_digit (c : Char) (h : isDigitCh c = true) (cs : List Char) :
    startsWithChars infinityChars (c :: cs) = false := by
  unfold infinityChars
  show (decide ('I' = c) && _) = false
  have hne : ('I' : Char) ≠ c := by
    rintro rfl
    exact absurd h (by decide)
  simp [hne]

theorem renderDecimal_eq (neg : Bool) (N K : ℕ) :
    renderDecimal neg N K =
      (if neg then ['-'] else []) ++
        (List.replicate (K + 1 - (natToChars N).length) '0' ++ natToChars N).take
          ((List.replicate (K + 1 - (natToChars N).length) '0' ++ natToChars N).length - K) ++
        (if K = 0 then [] else '.' ::
          (List.replicate (K + 1 - (natToChars N).length) '0' ++ natToChars N).drop
            ((List.replicate (K + 1 - (natToChars N).length) '0' ++ natToChars N).length - K)) :=
  rfl

theorem padded_digits (N K : ℕ) :
    ∀ d ∈ List.replicate (K + 1 - (natToChars N).length) '0' ++ natToChars N,
      isDigitCh d = true := by
  intro d hd
  rcases List.mem_append.mp hd with h | h
  · rw [List.eq_of_mem_replicate h]; decide
  · exact natToChars_digits N d h

theorem padded_length (N K : ℕ) :
    K + 1 ≤ (List.replicate (K + 1 - (natToChars N).length) '0' ++ natToChars N).length := by
  rw [List.length_append, List.length_replicate]
  omega

theorem digitsVal_padded (N K : ℕ) :
    digitsVal (List.replicate (K + 1 - (natToChars N).length) '0' ++ natToChars N) = N := by
  rw [digitsVal_replicate_zero, digitsVal_natToChars]

theorem renderDecimal_chars (neg : Bool) (N K : ℕ) :
    ∀ c ∈ renderDecimal neg N K, c = '-' ∨ c = '.' ∨ isDigitCh c = true := by
  intro c hc
  rw [renderDecimal_eq] at hc
  rcases List.mem_append.mp hc with h | h
  · rcases List.mem_append.mp h with h2 | h2
    · left
      cases neg with
      | false => simp at h2
      | true => simpa using h2
    · right; right
      exact padded_digits N K c (List.take_subset _ _ h2)
  · by_cases hK : K = 0
    · rw [if_pos hK] at h
      simp at h
    · rw [if_neg hK] at h
      rcases List.mem_cons.mp h with h2 | h2
      · right; left; exact h2
      · right; right
        exact padded_digits N K c (List.drop_subset _ _ h2)

theorem renderDecimal_not_ws (neg : Bool) (N K : ℕ) :
    ∀ c ∈ renderDecimal neg N K, isWS c = false := by
  intro c hc
  rcases renderDecimal_chars neg N K c hc with h | h | h
  · subst h; decide
  · subst h; decide
  · exact digit_not_ws c h

theorem renderDecimal_ne_nil (neg : Bool) (N K : ℕ) :
    renderDecimal neg N K ≠ [] := by
  rw [renderDecimal_eq]
  intro h
  have h2 := congrArg List.length h
  rw [List.length_append, List.length_append, List.length_take] at h2
  have h3 := padded_length N K
  simp at h2
  omega

theorem parseFloatChars_core_int (neg : Bool) (ip : List Char)
    (hip : ∀ c ∈ ip, isDigitCh c = true) (hne : ip ≠ []) :
    parseFloatChars ((if neg then ['-'] else []) ++ ip) =
      .rat (mkDec neg (digitsVal ip) 0) := by
  cases ip with
  | nil => exact absurd rfl hne
  | cons c ip2 =>
    have hc : isDigitCh c = true := hip c (List.mem_cons_self c ip2)
    obtain ⟨q1, q2, q3, q4, q5, q6⟩ := digit_ne_special c hc
    have hsign : readSign (c :: ip2) = (false, c :: ip2) := readSign_cons_other c _ q4 q5
    have hinf : startsWithChars infinityChars (c :: ip2) = false :=
      startsWith_infinity_of_digit c hc _
    have hspan1 : spanP isDigitCh (c :: ip2) = (c :: ip2, []) := by
      have := spanP_eq_of isDigitCh (c :: ip2) [] hip (by intro d hd; simp at hd)
      simpa using this
    cases neg with
    | false =>
      show parseFloatChars (c :: ip2) = _
      simp [parseFloatChars, hsign, hinf, hspan1, readExp]
    | true =>
      show parseFloatChars ('-' :: (c :: ip2)) = _
      have hsign2 : readSign ('-' :: (c :: ip2)) = (true, c :: ip2) := rfl
      simp [parseFloatChars, hsign2, hinf, hspan1, readExp]

theorem parseFloatChars_core (neg : Bool) (ip fp : List Char)
    (hip : ∀ c ∈ ip, isDigitCh c = true) (hfp : ∀ c ∈ fp, isDigitCh c = true)
    (hne : ip ≠ []) :
    parseFloatChars ((if neg then ['-'] else []) ++ ip ++ '.' :: fp) =
      .rat (mkDec neg (digitsVal (ip ++ fp)) (-(fp.length : ℤ))) := by
  cases ip with
  | nil => exact absurd rfl hne
  | cons c ip2 =>
    have hc : isDigitCh c = true := hip c (List.mem_cons_self c ip2)
    obtain ⟨q1, q2, q3, q4, q5, q6⟩ := digit_ne_special c hc
    have hsign : readSign ((c :: ip2) ++ '.' :: fp) = (false, (c :: ip2) ++ '.' :: fp) := by
      rw [List.cons_append]
      exact readSign_cons_other c _ q4 q5
    have hinf : startsWithChars infinityChars ((c :: ip2) ++ '.' :: fp) = false := by
      rw [List.cons_append]
      exact startsWith_infinity_of_digit c hc _
    have hspan1 : spanP isDigitCh ((c :: ip2) ++ '.' :: fp) = (c :: ip2, '.' :: fp) :=
      spanP_eq_of _ _ _ hip
        (by intro d hd; simp only [List.head?_cons, Option.some.injEq] at hd; subst hd; decide)
    have hspan2 : spanP isDigitCh fp = (fp, []) := by
      have := spanP_eq_of isDigitCh fp [] hfp (by intro d hd; simp at hd)
      simpa using this
    simp only [List.cons_append] at hsign hinf hspan1
    cases neg with
    | false =>
      show parseFloatChars (c :: (ip2 ++ '.' :: fp)) = _
      simp [parseFloatChars, hsign, hinf, hspan1, hspan2, readExp]
    | true =>
      show parseFloatChars ('-' :: (c :: (ip2 ++ '.' :: fp))) = _
      have hsign2 : readSign ('-' :: (c :: (ip2 ++ '.' :: fp))) =
        (true, c :: (ip2 ++ '.' :: fp)) := rfl
      simp [parseFloatChars, hsign2, hinf, hspan1, hspan2, readExp]

theorem parseFloatChars_renderDecimal (neg : Bool) (N K : ℕ) :
    parseFloatChars (renderDecimal neg N K) = .rat (mkDec neg N (-(K : ℤ))) := by
  have hdig := padded_digits N K
  have hlen := padded_length N K
  by_cases hK : K = 0
  · subst hK
    have h0 : renderDecimal neg N 0 =
        (if neg then ['-'] else []) ++
          (List.replicate (0 + 1 - (natToChars N).length) '0' ++ natToChars N) := by
      rw [renderDecimal_eq]
      simp
    rw [h0, parseFloatChars_core_int neg _ hdig
      (by intro h; rw [h] at hlen; simp at hlen)]
    rw [digitsVal_padded]
    norm_num
  · rw [renderDecimal_eq, if_neg hK]
    rw [parseFloatChars_core neg _ _
      (fun c hc => hdig c (List.take_subset _ _ hc))
      (fun c hc => hdig c (List.drop_subset _ _ hc))
      (by
        intro h
        have h2 := congrArg List.length h
        rw [List.length_take] at h2
        simp at h2
        omega)]
    rw [List.take_append_drop, digitsVal_padded, List.length_drop]
    have : ((List.replicate (K + 1 - (natToChars N).length) '0' ++ natToChars N).length : ℤ) -
        ((List.replicate (K + 1 - (natToChars N).length) '0' ++ natToChars N).length - K : ℕ) =
        (K : ℤ) := by
      omega
    congr 1
    congr 1
    omega

theorem head?_mem_list {α : Type} {l : List α} {c : α} (h : l.head? = some c) : c ∈ l := by
  cases l with
  | nil => simp at h
  | cons a l2 =>
    simp only [List.head?_cons, Option.some.injEq] at h
    subst h
    exact List.mem_cons_self a l2

theorem getLast?_mem_list {α : Type} {l : List α} {c : α} (h : l.getLast? = some c) : c ∈ l := by
  rw [← List.head?_reverse] at h
  exact List.mem_reverse.mp (head?_mem_list h)

theorem dropWhile_eq_self_of_head (cs : List Char)
    (h : ∀ c, cs.head? = some c → isWS c = false) : cs.dropWhile isWS = cs := by
  cases cs with
  | nil => rfl
  | cons c rest => simp [List.dropWhile_cons, h c rfl]

theorem dvd_pow10_of_smooth (d a b K : ℕ) (h : 2 ^ a * 5 ^ b = d) (haK : a ≤ K)
    (hbK : b ≤ K) : d ∣ 10 ^ K := by
  rw [← h]
  have h10 : (10 : ℕ) ^ K = 2 ^ K * 5 ^ K := by
    rw [← Nat.mul_pow]
  rw [h10]
  exact Nat.mul_dvd_mul (Nat.pow_dvd_pow 2 haK) (Nat.pow_dvd_pow 5 hbK)

theorem mkDec_render_value (q : ℚ)
    (hsm : 2 ^ powDiv 2 q.den * 5 ^ powDiv 5 q.den = q.den) :
    mkDec (decide (q.num < 0))
      (q.num.natAbs * 10 ^ max (powDiv 2 q.den) (powDiv 5 q.den) / q.den)
      (-((max (powDiv 2 q.den) (powDiv 5 q.den) : ℕ) : ℤ)) = q := by
  have hdvd : q.den ∣ 10 ^ max (powDiv 2 q.den) (powDiv 5 q.den) :=
    dvd_pow10_of_smooth q.den _ _ _ hsm (le_max_left _ _) (le_max_right _ _)
  have hN : q.num.natAbs * 10 ^ max (powDiv 2 q.den) (powDiv 5 q.den) / q.den * q.den =
      q.num.natAbs * 10 ^ max (powDiv 2 q.den) (powDiv 5 q.den) :=
    Nat.div_mul_cancel (Dvd.dvd.mul_left hdvd _)
  have hNZ : (↑(q.num.natAbs * 10 ^ max (powDiv 2 q.den) (powDiv 5 q.den) / q.den) : ℤ) *
      (q.den : ℤ) = (q.num.natAbs : ℤ) * 10 ^ max (powDiv 2 q.den) (powDiv 5 q.den) := by
    exact_mod_cast congrArg (Nat.cast : ℕ → ℤ) hN
  set K := max (powDiv 2 q.den) (powDiv 5 q.den) with hK
  set N := q.num.natAbs * 10 ^ K / q.den with hNdef
  have hmk : mkDec (decide (q.num < 0)) N (-(K : ℤ)) =
      mkRat (if decide (q.num < 0) = true then -(N : ℤ) else (N : ℤ)) (10 ^ K) := by
    unfold mkDec
    by_cases hK0 : K = 0
    · rw [hK0]
      norm_num
    · have hlt : ¬ ((0 : ℤ) ≤ -(K : ℤ)) := by omega
      rw [if_neg hlt]
      have ht : (-(-(K : ℤ))).toNat = K := by omega
      rw [ht]
  rw [hmk, Rat.mkRat_eq_div]
  have hden : ((10 ^ K : ℕ) : ℚ) ≠ 0 := by positivity
  have hqden : ((q.den : ℕ) : ℚ) ≠ 0 := by
    exact_mod_cast q.den_nz
  rw [div_eq_iff hden]
  conv_rhs => rw [← Rat.num_div_den q]
  rw [div_mul_eq_mul_div, eq_comm, div_eq_iff hqden, eq_comm]
  by_cases hneg : q.num < 0
  · simp only [decide_eq_true_eq]
    rw [if_pos hneg]
    have habs : (q.num.natAbs : ℤ) = -q.num := Int.ofNat_natAbs_of_nonpos (le_of_lt hneg)
    rw [habs] at hNZ
    have hNQ : (N : ℚ) * (q.den : ℚ) = -(q.num : ℚ) * 10 ^ K := by exact_mod_cast hNZ
    push_cast
    linarith [hNQ]
  · simp only [decide_eq_true_eq]
    rw [if_neg hneg]
    have habs : (q.num.natAbs : ℤ) = q.num := Int.natAbs_of_nonneg (not_lt.mp hneg)
    rw [habs] at hNZ
    have hNQ : (N : ℚ) * (q.den : ℚ) = (q.num : ℚ) * 10 ^ K := by exact_mod_cast hNZ
    push_cast
    linarith [hNQ]

theorem ratRenderChars_eq_renderDecimal (q : ℚ)
    (hsm : 2 ^ powDiv 2 q.den * 5 ^ powDiv 5 q.den = q.den) :
    ratRenderChars q = renderDecimal (decide (q.num < 0))
      (q.num.natAbs * 10 ^ max (powDiv 2 q.den) (powDiv 5 q.den) / q.den)
      (max (powDiv 2 q.den) (powDiv 5 q.den)) := by
  unfold ratRenderChars
  rw [if_pos hsm]

theorem smooth_of_dvd_pow10 (d k : ℕ) (hd : d ≠ 0) (hdvd : d ∣ 10 ^ k) :
    2 ^ powDiv 2 d * 5 ^ powDiv 5 d = d := by
  have h2 : (2 : ℕ).Prime := Nat.prime_two
  have h5 : (5 : ℕ).Prime := by norm_num
  obtain ⟨i, m, hm2, hm0, hdm⟩ : ∃ i m, ¬ 2 ∣ m ∧ m ≠ 0 ∧ d = 2 ^ i * m := by
    refine ⟨d.factorization 2, d / 2 ^ d.factorization 2,
      Nat.not_dvd_ordCompl h2 hd, ?_, ?_⟩
    · have := Nat.ordCompl_pos 2 hd
      omega
    · exact (Nat.ordProj_mul_ordCompl_eq_self d 2).symm
  have hm_dvd : m ∣ 10 ^ k := dvd_trans ⟨2 ^ i, by rw [hdm]; ring⟩ hdvd
  have hcop2 : Nat.Coprime m 2 := Nat.Coprime.symm ((Nat.Prime.coprime_iff_not_dvd h2).mpr hm2)
  have hm_dvd5 : m ∣ 5 ^ k := by
    have h10 : (10 : ℕ) ^ k = 2 ^ k * 5 ^ k := by rw [← Nat.mul_pow]
    rw [h10] at hm_dvd
    exact (Nat.Coprime.pow_right k hcop2).dvd_of_dvd_mul_left hm_dvd
  obtain ⟨j, m2, hm25, hm20, hmm⟩ : ∃ j m2, ¬ 5 ∣ m2 ∧ m2 ≠ 0 ∧ m = 5 ^ j * m2 := by
    refine ⟨m.factorization 5, m / 5 ^ m.factorization 5,
      Nat.not_dvd_ordCompl h5 hm0, ?_, ?_⟩
    · have := Nat.ordCompl_pos 5 hm0
      omega
    · exact (Nat.ordProj_mul_ordCompl_eq_self m 5).symm
  have hm2_dvd : m2 ∣ 5 ^ k := dvd_trans ⟨5 ^ j, by rw [hmm]; ring⟩ hm_dvd5
  have hcop5 : Nat.Coprime m2 5 := Nat.Coprime.symm ((Nat.Prime.coprime_iff_not_dvd h5).mpr hm25)
  have hm2_one : m2 = 1 := Nat.Coprime.eq_one_of_dvd (Nat.Coprime.pow_right k hcop5) hm2_dvd
  have hdij : d = 2 ^ i * 5 ^ j := by
    rw [hdm, hmm, hm2_one, Nat.mul_one]
  have hd2 : powDiv 2 d = i := by
    rw [hdij]
    exact powDiv_spec 2 (by norm_num) i (5 ^ j)
      (fun hdv => by have := Nat.Prime.dvd_of_dvd_pow h2 hdv; norm_num at this)
      (by positivity)
  have hd5 : powDiv 5 d = j := by
    rw [hdij, Nat.mul_comm]
    exact powDiv_spec 5 (by norm_num) j (2 ^ i)
      (fun hdv => by have := Nat.Prime.dvd_of_dvd_pow h5 hdv; norm_num at this)
      (by positivity)
  rw [hd2, hd5, ← hdij]

theorem numClean_rat_of_dvd (q : ℚ) (k : ℕ) (h : q.den ∣ 10 ^ k) :
    numClean (.rat q) = true := by
  show (2 ^ powDiv 2 q.den * 5 ^ powDiv 5 q.den == q.den) = true
  rw [beq_iff_eq]
  exact smooth_of_dvd_pow10 q.den k q.den_nz h

theorem mkDec_den_dvd (neg : Bool) (m : ℕ) (e : ℤ) :
    (mkDec neg m e).den ∣ 10 ^ (-e).toNat := by
  unfold mkDec
  by_cases he : 0 ≤ e
  · rw [if_pos he]
    have h1 : (mkRat ((if neg = true then -(m : ℤ) else (m : ℤ)) * 10 ^ e.toNat) 1).den = 1 := by
      rw [Rat.mkRat_one]
      exact Rat.den_intCast _
    rw [h1]
    exact Nat.one_dvd _
  · rw [if_neg he]
    have h2 := Rat.den_dvd (if neg = true then -(m : ℤ) else (m : ℤ))
      (((10 : ℕ) ^ (-e).toNat : ℕ) : ℤ)
    rw [← Rat.mkRat_eq_divInt] at h2
    exact_mod_cast h2

theorem numClean_mkDec (neg : Bool) (m : ℕ) (e : ℤ) :
    numClean (.rat (mkDec neg m e)) = true :=
  numClean_rat_of_dvd _ (-e).toNat (mkDec_den_dvd neg m e)

theorem numClean_parseFloatChars (cs : List Char) :
    numClean (parseFloatChars cs) = true := by
  unfold parseFloatChars
  split
  split_ifs with h1 h2
  · rfl
  · rfl
  · split
    split <;> split_ifs with h3 <;> first | decide | exact numClean_mkDec _ _ _

theorem numClean_jsParseFloat (s : String) : numClean (jsParseFloat s) = true :=
  numClean_parseFloatChars _

theorem head?_append_left {α : Type} (xs ys : List α) (c : α) (h : xs.head? = some c) :
    (xs ++ ys).head? = some c := by
  cases xs with
  | nil => simp at h
  | cons a l => simpa using h

theorem isDecTailOk_digits (ip : List Char) (hip : ∀ c ∈ ip, isDigitCh c = true)
    (hne : ip ≠ []) : isDecTailOk ip = true := by
  unfold isDecTailOk
  have hspan : spanP isDigitCh ip = (ip, []) := by
    have := spanP_eq_of isDigitCh ip [] hip (by intro d hd; simp at hd)
    simpa using this
  rw [hspan]
  cases ip with
  | nil => exact absurd rfl hne
  | cons c ip2 => rfl

theorem isDecTailOk_digits_dot (ip fp : List Char) (hip : ∀ c ∈ ip, isDigitCh c = true)
    (hfp : ∀ c ∈ fp, isDigitCh c = true) (hne : ip ≠ []) :
    isDecTailOk (ip ++ '.' :: fp) = true := by
  unfold isDecTailOk
  have hspan1 : spanP isDigitCh (ip ++ '.' :: fp) = (ip, '.' :: fp) :=
    spanP_eq_of _ _ _ hip
      (by intro d hd; simp only [List.head?_cons, Option.some.injEq] at hd; subst hd; decide)
  have hspan2 : spanP isDigitCh fp = (fp, []) := by
    have := spanP_eq_of isDigitCh fp [] hfp (by intro d hd; simp at hd)
    simpa using this
  rw [hspan1]
  cases ip with
  | nil => exact absurd rfl hne
  | cons c ip2 =>
    show (match '.' :: fp with
      | '.' :: restp =>
        match spanP isDigitCh restp with
        | (_, rest2) => isExpPartOk rest2
      | rest => isExpPartOk rest) = true
    show (match spanP isDigitCh fp with
      | (_, rest2) => isExpPartOk rest2) = true
    rw [hspan2]
    rfl

theorem jsStrNumericBody_sign_dec (neg : Bool) (body : List Char)
    (hbody : isDecTailOk body = true)
    (hhead : ∀ c, body.head? = some c → isDigitCh c = true) (hne : body ≠ []) :
    jsStrNumericBody ((if neg then ['-'] else []) ++ body) = true := by
  cases body with
  | nil => exact absurd rfl hne
  | cons c body2 =>
    have hc := hhead c rfl
    obtain ⟨q1, q2, q3, q4, q5, q6⟩ := digit_ne_special c hc
    unfold jsStrNumericBody
    rw [Bool.or_eq_true]
    refine Or.inr ?_
    cases neg with
    | false =>
      show (match readSign (c :: body2) with
        | (_, cs1) => cs1 == infinityChars || isDecTailOk cs1) = true
      rw [readSign_cons_other c _ q4 q5]
      simp [hbody]
    | true =>
      show (match readSign ('-' :: (c :: body2)) with
        | (_, cs1) => cs1 == infinityChars || isDecTailOk cs1) = true
      have hs : readSign ('-' :: (c :: body2)) = (true, c :: body2) := rfl
      rw [hs]
      simp [hbody]

theorem ip_ne_nil (N K : ℕ) :
    (List.replicate (K + 1 - (natToChars N).length) '0' ++ natToChars N).take
      ((List.replicate (K + 1 - (natToChars N).length) '0' ++ natToChars N).length - K) ≠
      [] := by
  intro h
  have h2 := congrArg List.length h
  rw [List.length_take] at h2
  have h3 := padded_length N K
  simp at h2
  omega

theorem jsStrNumericBody_renderDecimal (neg : Bool) (N K : ℕ) :
    jsStrNumericBody (renderDecimal neg N K) = true := by
  by_cases hK : K = 0
  · subst hK
    have h0 : renderDecimal neg N 0 =
        (if neg then ['-'] else []) ++
          (List.replicate (0 + 1 - (natToChars N).length) '0' ++ natToChars N) := by
      rw [renderDecimal_eq]
      simp
    rw [h0]
    refine jsStrNumericBody_sign_dec neg _ ?_ ?_ ?_
    · refine isDecTailOk_digits _ (padded_digits N 0) ?_
      intro h
      have := padded_length N 0
      rw [h] at this
      simp at this
    · intro c hc
      exact padded_digits N 0 c (head?_mem_list hc)
    · intro h
      have := padded_length N 0
      rw [h] at this
      simp at this
  · rw [renderDecimal_eq, if_neg hK, List.append_assoc]
    refine jsStrNumericBody_sign_dec neg _ ?_ ?_ ?_
    · exact isDecTailOk_digits_dot _ _
        (fun c hc => padded_digits N K c (List.take_subset _ _ hc))
        (fun c hc => padded_digits N K c (List.drop_subset _ _ hc))
        (ip_ne_nil N K)
    · intro c hc
      have h2 : ((List.replicate (K + 1 - (natToChars N).length) '0' ++ natToChars N).take
          ((List.replicate (K + 1 - (natToChars N).length) '0' ++ natToChars N).length - K)).head? =
          some c := by
        cases hto : (List.replicate (K + 1 - (natToChars N).length) '0' ++ natToChars N).take
            ((List.replicate (K + 1 - (natToChars N).length) '0' ++ natToChars N).length - K) with
        | nil => exact absurd hto (ip_ne_nil N K)
        | cons a l =>
          rw [hto] at hc
          simpa using hc
      exact padded_digits N K c (List.take_subset _ _ (head?_mem_list h2))
    · intro h
      simp at h

theorem trimChars_renderDecimal (neg : Bool) (N K : ℕ) :
    trimChars (renderDecimal neg N K) = renderDecimal neg N K :=
  trimChars_of_no_ws_ends _
    (fun c hc => renderDecimal_not_ws neg N K c (head?_mem_list hc))
    (fun c hc => renderDecimal_not_ws neg N K c (getLast?_mem_list hc))

theorem jsIsNumeric_renderDecimal (neg : Bool) (N K : ℕ) :
    jsIsNumeric (String.mk (renderDecimal neg N K)) = true := by
  show ((trimChars (renderDecimal neg N K)).isEmpty ||
    jsStrNumericBody (trimChars (renderDecimal neg N K))) = true
  rw [trimChars_renderDecimal, Bool.or_eq_true]
  exact Or.inr (jsStrNumericBody_renderDecimal neg N K)

theorem numClean_rat_smooth (q : ℚ) (h : numClean (.rat q) = true) :
    2 ^ powDiv 2 q.den * 5 ^ powDiv 5 q.den = q.den :=
  beq_iff_eq.mp h

theorem parseFloatChars_numToString (n : JNum) (h : numClean n = true) :
    parseFloatChars (numToString n).data = n := by
  cases n with
  | rat q =>
    have hsm := numClean_rat_smooth q h
    show parseFloatChars (ratRenderChars q) = _
    rw [ratRenderChars_eq_renderDecimal q hsm, parseFloatChars_renderDecimal,
      mkDec_render_value q hsm]
  | inf => rfl
  | negInf => rfl

theorem jsParseFloat_numToString (n : JNum) (h : numClean n = true) :
    jsParseFloat (numToString n) = n := by
  unfold jsParseFloat
  cases n with
  | rat q =>
    have hsm := numClean_rat_smooth q h
    have hdw : ((numToString (JNum.rat q)).data).dropWhile isWS =
        (numToString (JNum.rat q)).data := by
      show (ratRenderChars q).dropWhile isWS = ratRenderChars q
      rw [ratRenderChars_eq_renderDecimal q hsm]
      exact dropWhile_eq_self_of_head _
        (fun c hc => renderDecimal_not_ws _ _ _ c (head?_mem_list hc))
    rw [hdw]
    exact parseFloatChars_numToString _ h
  | inf => rfl
  | negInf => rfl

theorem numToString_ne_nil (n : JNum) (h : numClean n = true) :
    (numToString n).data ≠ [] := by
  cases n with
  | rat q =>
    have hsm := numClean_rat_smooth q h
    show ratRenderChars q ≠ []
    rw [ratRenderChars_eq_renderDecimal q hsm]
    exact renderDecimal_ne_nil _ _ _
  | inf => decide
  | negInf => decide

theorem jsIsNumeric_numToString (n : JNum) (h : numClean n = true) :
    jsIsNumeric (numToString n) = true := by
  cases n with
  | rat q =>
    have hsm := numClean_rat_smooth q h
    show jsIsNumeric (String.mk (ratRenderChars q)) = true
    rw [ratRenderChars_eq_renderDecimal q hsm]
    exact jsIsNumeric_renderDecimal _ _ _
  | inf => decide
  | negInf => decide

theorem parseVal_numToString (n : JNum) (h : numClean n = true) :
    parseVal (some (numToString n)) = .vnum n := by
  have hne : (numToString n).data.isEmpty = false := by
    have := numToString_ne_nil n h
    cases hto : (numToString n).data with
    | nil => exact absurd hto this
    | cons a l => rfl
  show (if !(numToString n).data.isEmpty && jsIsNumeric (numToString n) then
    JSVal.vnum (jsParseFloat (numToString n)) else JSVal.vstr (numToString n)) = _
  rw [hne, jsIsNumeric_numToString n h]
  simp [jsParseFloat_numToString n h]

theorem numToString_chars (n : JNum) (h : numClean n = true) :
    ∀ c ∈ (numToString n).data, isWS c = false ∧ c ≠ ',' ∧ c ≠ '"' ∧ c ≠ '\n' := by
  cases n with
  | rat q =>
    have hsm := numClean_rat_smooth q h
    intro c hc
    have hc2 : c ∈ ratRenderChars q := hc
    rw [ratRenderChars_eq_renderDecimal q hsm] at hc2
    rcases renderDecimal_chars _ _ _ c hc2 with h1 | h1 | h1
    · subst h1; exact ⟨by decide, by decide, by decide, by decide⟩
    · subst h1; exact ⟨by decide, by decide, by decide, by decide⟩
    · obtain ⟨w1, w2, w3, _, _, _⟩ := digit_ne_special c h1
      exact ⟨digit_not_ws c h1, w1, w2, w3⟩
  | inf => decide
  | negInf => decide

theorem contains_eq_false_of_not_mem {l : List Char} {a : Char} (h : a ∉ l) :
    l.contains a = false := by
  cases hc : l.contains a with
  | false => rfl
  | true =>
    obtain ⟨b, hbmem, hbeq⟩ := List.contains_iff_exists_mem_beq.mp hc
    have hb2 := hbmem
    rw [← beq_iff_eq.mp hbeq] at hb2
    exact absurd hb2 h

theorem parseVal_clean (s : String) (h1 : trimChars s.data = s.data)
    (h2 : '"' ∉ s.data) (h3 : '\n' ∉ s.data) :
    valClean (parseVal (some s)) = true := by
  show valClean (if !s.data.isEmpty && jsIsNumeric s then JSVal.vnum (jsParseFloat s)
    else JSVal.vstr s) = true
  cases hb : (!s.data.isEmpty && jsIsNumeric s) with
  | true =>
    rw [if_pos rfl]
    exact numClean_jsParseFloat s
  | false =>
    rw [if_neg Bool.false_ne_true]
    show (trimChars s.data == s.data && !s.data.contains '"' &&
      !s.data.contains '\n' && (s.data.isEmpty || !jsIsNumeric s)) = true
    rw [h1, contains_eq_false_of_not_mem h2, contains_eq_false_of_not_mem h3]
    simp only [beq_self_eq_true, Bool.not_false, Bool.true_and, Bool.and_true]
    cases hie : s.data.isEmpty with
    | true => simp
    | false =>
      rw [hie] at hb
      simp only [Bool.not_false, Bool.true_and] at hb
      simp [hb]

theorem scanGo_clean : ∀ (cs cur : List Char) (inQ : Bool), '"' ∉ cur →
    ∀ s ∈ scanGo cs cur inQ, ∃ w, s = String.mk (trimChars w) ∧ '"' ∉ w ∧
      ∀ c ∈ w, c ∈ cs ∨ c ∈ cur := by
  intro cs
  induction cs with
  | nil =>
    intro cur inQ hqc s hs
    rw [scanGo_nil] at hs
    simp only [List.mem_singleton] at hs
    refine ⟨cur.reverse, hs, ?_, ?_⟩
    · intro hq
      exact hqc (List.mem_reverse.mp hq)
    · intro c hcm
      right
      exact List.mem_reverse.mp hcm
  | cons c rest ih =>
    intro cur inQ hqc s hs
    by_cases hcq : c = '"'
    · subst hcq
      rw [scanGo_open_quote] at hs
      obtain ⟨w, hw1, hw2, hw3⟩ := ih cur (!inQ) hqc s hs
      exact ⟨w, hw1, hw2, fun d hd =>
        (hw3 d hd).imp (fun h => List.mem_cons_of_mem _ h) id⟩
    · rw [scanGo, if_neg hcq] at hs
      cases hcc : (c = ',' && !inQ) with
      | true =>
        rw [hcc, if_pos rfl] at hs
        rcases List.mem_cons.mp hs with h | h
        · refine ⟨cur.reverse, h, ?_, ?_⟩
          · intro hq
            exact hqc (List.mem_reverse.mp hq)
          · intro d hd
            right
            exact List.mem_reverse.mp hd
        · obtain ⟨w, hw1, hw2, hw3⟩ := ih [] inQ (by simp) s h
          refine ⟨w, hw1, hw2, ?_⟩
          intro d hd
          rcases hw3 d hd with h2 | h2
          · exact Or.inl (List.mem_cons_of_mem _ h2)
          · simp at h2
      | false =>
        rw [hcc] at hs
        simp only [Bool.false_eq_true, if_false] at hs
        have hqc2 : '"' ∉ c :: cur := by
          intro hq
          rcases List.mem_cons.mp hq with h | h
          · exact hcq h.symm
          · exact hqc h
        obtain ⟨w, hw1, hw2, hw3⟩ := ih (c :: cur) inQ hqc2 s hs
        refine ⟨w, hw1, hw2, ?_⟩
        intro d hd
        rcases hw3 d hd with h2 | h2
        · exact Or.inl (List.mem_cons_of_mem _ h2)
        · rcases List.mem_cons.mp h2 with h3 | h3
          · exact Or.inl (h3 ▸ List.mem_cons_self c rest)
          · exact Or.inr h3

theorem splitCSVLine_fields_clean (line : List Char) (hnl : '\n' ∉ line) :
    ∀ s ∈ splitCSVLine line, trimChars s.data = s.data ∧ '"' ∉ s.data ∧ '\n' ∉ s.data := by
  intro s hs
  obtain ⟨w, hw1, hw2, hw3⟩ := scanGo_clean line [] false (by simp) s hs
  have hdata : s.data = trimChars w := by rw [hw1]
  refine ⟨?_, ?_, ?_⟩
  · rw [hdata, trimChars_idem]
  · intro hq
    exact hw2 (mem_trimChars (hdata ▸ hq))
  · intro hq
    rcases hw3 '\n' (mem_trimChars (hdata ▸ hq)) with h | h
    · exact hnl h
    · simp at h

theorem parseVal_field_clean (line : List Char) (hnl : '\n' ∉ line) :
    ∀ s ∈ splitCSVLine line, valClean (parseVal (some s)) = true := by
  intro s hs
  obtain ⟨a1, a2, a3⟩ := splitCSVLine_fields_clean line hnl s hs
  exact parseVal_clean s a1 a2 a3

theorem not_mem_of_contains_eq_false {l : List Char} {a : Char}
    (h : l.contains a = false) : a ∉ l := by
  intro hm
  have h2 : l.contains a = true := List.contains_iff_exists_mem_beq.mpr ⟨a, hm, by simp⟩
  rw [h2] at h
  exact Bool.true_eq_false.mp h

theorem escQuote_of_no_quote (cs : List Char) (h : '"' ∉ cs) : escQuote cs = cs := by
  induction cs with
  | nil => rfl
  | cons c rest ih =>
    have hc : c ≠ '"' := fun hh => h (hh ▸ List.mem_cons_self c rest)
    have hrest : '"' ∉ rest := fun hh => h (List.mem_cons_of_mem c hh)
    show (if c = '"' then '"' :: '"' :: escQuote rest else c :: escQuote rest) = c :: rest
    rw [if_neg hc, ih hrest]

theorem valClean_vstr_parts (s : String) (h : valClean (.vstr s) = true) :
    trimChars s.data = s.data ∧ '"' ∉ s.data ∧ '\n' ∉ s.data ∧
      (s.data.isEmpty || !jsIsNumeric s) = true := by
  have h2 : (trimChars s.data == s.data && !s.data.contains '"' &&
      !s.data.contains '\n' && (s.data.isEmpty || !jsIsNumeric s)) = true := h
  simp only [Bool.and_eq_true, Bool.not_eq_true'] at h2
  obtain ⟨⟨⟨hA, hB⟩, hC⟩, hD⟩ := h2
  exact ⟨beq_iff_eq.mp hA, not_mem_of_contains_eq_false hB,
    not_mem_of_contains_eq_false hC, hD⟩

theorem cellContent_trim (v : JSVal) (h : valClean v = true) :
    trimChars (cellContent v) = cellContent v := by
  cases v with
  | vstr s => exact (valClean_vstr_parts s h).1
  | vnum n =>
    exact trimChars_of_no_ws_ends _
      (fun c hc => (numToString_chars n h c (head?_mem_list hc)).1)
      (fun c hc => (numToString_chars n h c (getLast?_mem_list hc)).1)
  | vundef => exact absurd h (by decide)
  | vnull => exact absurd h (by decide)
  | vbool b => exact absurd h (by cases b <;> decide)
  | varr es => exact absurd h (by simp [valClean])
  | vobj fs => exact absurd h (by simp [valClean])

theorem cellContent_no_nl (v : JSVal) (h : valClean v = true) :
    '\n' ∉ cellContent v := by
  cases v with
  | vstr s => exact (valClean_vstr_parts s h).2.2.1
  | vnum n => exact fun hm => (numToString_chars n h '\n' hm).2.2.2 rfl
  | vundef => exact absurd h (by decide)
  | vnull => exact absurd h (by decide)
  | vbool b => exact absurd h (by cases b <;> decide)
  | varr es => exact absurd h (by simp [valClean])
  | vobj fs => exact absurd h (by simp [valClean])

theorem scan_cell_step (v : JSVal) (h : valClean v = true) :
    ∀ tail, scanGo (csvEscapeVal v ++ tail) [] false =
      scanGo tail ((cellContent v).reverse) false := by
  intro tail
  cases v with
  | vstr s =>
    obtain ⟨hA, hB, hC, hD⟩ := valClean_vstr_parts s h
    have hanyq : s.data.any (fun c => c = '"') = false := by
      rw [List.any_eq_false]
      intro c hcm
      simp only [decide_eq_true_eq]
      intro hcq
      exact hB (hcq ▸ hcm)
    cases hcomma : s.data.any (fun c => c = ',') with
    | true =>
      have hcell : csvEscapeVal (.vstr s) = '"' :: (escQuote s.data ++ ['"']) := by
        show (if s.data.any (fun c => c = ',') || s.data.any (fun c => c = '"') then
          '"' :: (escQuote s.data ++ ['"']) else s.data) = _
        rw [hcomma, hanyq]
        rfl
      rw [hcell, escQuote_of_no_quote _ hB]
      have hshape : ('"' :: (s.data ++ ['"'])) ++ tail = '"' :: (s.data ++ '"' :: tail) := by
        simp
      rw [hshape, scanGo_quoted_field s.data hB tail []]
      rw [List.append_nil]
      rfl
    | false =>
      have hcell : csvEscapeVal (.vstr s) = s.data := by
        show (if s.data.any (fun c => c = ',') || s.data.any (fun c => c = '"') then
          '"' :: (escQuote s.data ++ ['"']) else s.data) = _
        rw [hcomma, hanyq]
        rfl
      have hnc : ',' ∉ s.data := by
        intro hm
        rw [List.any_eq_false] at hcomma
        have := hcomma ',' hm
        simp at this
      rw [hcell, scanGo_accum_free s.data hB hnc tail []]
      rw [List.append_nil]
      rfl
  | vnum n =>
    have hnum : numClean n = true := h
    have hcell : csvEscapeVal (.vnum n) = (numToString n).data := rfl
    have hq : '"' ∉ (numToString n).data :=
      fun hm => (numToString_chars n hnum '"' hm).2.2.1 rfl
    have hc : ',' ∉ (numToString n).data :=
      fun hm => (numToString_chars n hnum ',' hm).2.1 rfl
    rw [hcell, scanGo_accum_free _ hq hc tail []]
    rw [List.append_nil]
    rfl
  | vundef => exact absurd h (by decide)
  | vnull => exact absurd h (by decide)
  | vbool b => exact absurd h (by cases b <;> decide)
  | varr es => exact absurd h (by simp [valClean])
  | vobj fs => exact absurd h (by simp [valClean])

theorem scan_cell_final (v : JSVal) (h : valClean v = true) :
    scanGo (csvEscapeVal v) [] false = [String.mk (cellContent v)] := by
  have h2 := scan_cell_step v h []
  rw [List.append_nil] at h2
  rw [h2, scanGo_nil, List.reverse_reverse, cellContent_trim v h]

theorem scan_cells : ∀ (vs : List JSVal) (v0 : JSVal),
    (∀ v ∈ v0 :: vs, valClean v = true) →
    splitCSVLine (joinWithChar ',' ((v0 :: vs).map csvEscapeVal)) =
      (v0 :: vs).map (fun v => String.mk (cellContent v)) := by
  intro vs
  induction vs with
  | nil =>
    intro v0 hcl
    show splitCSVLine (csvEscapeVal v0) = [String.mk (cellContent v0)]
    exact scan_cell_final v0 (hcl v0 (List.mem_cons_self v0 []))
  | cons v1 rest ih =>
    intro v0 hcl
    have hv0 : valClean v0 = true := hcl v0 (List.mem_cons_self v0 _)
    show scanGo (csvEscapeVal v0 ++ ',' :: joinWithChar ','
      ((v1 :: rest).map csvEscapeVal)) [] false = _
    rw [scan_cell_step v0 hv0, scanGo_comma, List.reverse_reverse, cellContent_trim v0 hv0]
    have ih2 := ih v1 (fun v hv => hcl v (List.mem_cons_of_mem _ hv))
    show String.mk (cellContent v0) :: splitCSVLine (joinWithChar ','
      ((v1 :: rest).map csvEscapeVal)) = _
    rw [ih2]
    rfl

theorem splitCSVLine_serializeRow (headers : List String) (r : Obj)
    (hne : headers ≠ [])
    (hvals : ∀ h2 ∈ headers, valClean (objGet r h2) = true) :
    splitCSVLine (serializeRowChars headers r) =
      headers.map (fun h2 => String.mk (cellContent (objGet r h2))) := by
  cases headers with
  | nil => exact absurd rfl hne
  | cons h0 hs =>
    have hrw : serializeRowChars (h0 :: hs) r =
        joinWithChar ',' ((objGet r h0 :: hs.map (fun h2 => objGet r h2)).map csvEscapeVal) := by
      show joinWithChar ',' ((h0 :: hs).map (fun h2 => csvEscapeVal (objGet r h2))) = _
      simp only [List.map_cons, List.map_map]
      rfl
    rw [hrw, scan_cells (hs.map (fun h2 => objGet r h2)) (objGet r h0) ?_]
    · simp only [List.map_cons, List.map_map]
      rfl
    · intro v hv
      rcases List.mem_cons.mp hv with h2 | h2
      · rw [h2]
        exact hvals h0 (List.mem_cons_self h0 hs)
      · obtain ⟨h3, hh3, hh3e⟩ := List.mem_map.mp h2
        rw [← hh3e]
        exact hvals h3 (List.mem_cons_of_mem _ hh3)

theorem buildList_keys : ∀ (hs vs : List String),
    (buildList hs vs).map (fun p => p.1) = hs := by
  intro hs
  induction hs with
  | nil => intro vs; rfl
  | cons h hs2 ih =>
    intro vs
    show (h, parseVal vs.head?).1 :: (buildList hs2 vs.tail).map (fun p => p.1) = h :: hs2
    rw [ih]

theorem buildObjGo_eq_append : ∀ (hs : List String) (vs : List String) (acc : Obj),
    hs.Nodup → (∀ h2 ∈ hs, hasKeyName acc h2 = false) →
    buildObjGo acc hs vs = acc ++ buildList hs vs := by
  intro hs
  induction hs with
  | nil =>
    intro vs acc _ _
    show acc = acc ++ []
    rw [List.append_nil]
  | cons h hs2 ih =>
    intro vs acc hnd hfresh
    show buildObjGo (objInsert acc h (parseVal vs.head?)) hs2 vs.tail =
      acc ++ ((h, parseVal vs.head?) :: buildList hs2 vs.tail)
    have hins : objInsert acc h (parseVal vs.head?) = acc ++ [(h, parseVal vs.head?)] := by
      unfold objInsert
      rw [hfresh h (List.mem_cons_self h hs2)]
      simp
    rw [hins, ih vs.tail _ (List.nodup_cons.mp hnd).2 ?_]
    · rw [List.append_assoc]
      rfl
    · intro h2 hh2
      have hne2 : h2 ≠ h := fun hh => (List.nodup_cons.mp hnd).1 (hh ▸ hh2)
      show (acc ++ [(h, parseVal vs.head?)]).any (fun p => p.1 == h2) = false
      rw [List.any_append]
      have r1 : acc.any (fun p => p.1 == h2) = false := hfresh h2 (List.mem_cons_of_mem _ hh2)
      have r2 : [(h, parseVal vs.head?)].any (fun p => p.1 == h2) = false := by
        simp only [List.any_cons, List.any_nil, Bool.or_false]
        exact beq_eq_false_iff_ne.mpr (fun hh => hne2 hh.symm)
      rw [r1, r2]
      rfl

theorem buildObj_eq_buildList (hs vs : List String) (hnd : hs.Nodup) :
    buildObj hs vs = buildList hs vs := by
  show buildObjGo [] hs vs = _
  rw [buildObjGo_eq_append hs vs [] hnd (fun h2 _ => rfl)]
  rw [List.nil_append]

theorem buildObj_keys (hs vs : List String) (hnd : hs.Nodup) :
    (buildObj hs vs).map (fun p => p.1) = hs := by
  rw [buildObj_eq_buildList hs vs hnd, buildList_keys]

theorem buildList_vals : ∀ (hs vs : List String), hs.length ≤ vs.length →
    ∀ p ∈ buildList hs vs, ∃ s ∈ vs, p.2 = parseVal (some s) := by
  intro hs
  induction hs with
  | nil =>
    intro vs _ p hp
    simp [buildList] at hp
  | cons h hs2 ih =>
    intro vs hlen p hp
    cases vs with
    | nil => simp at hlen
    | cons s vs2 =>
      rcases List.mem_cons.mp hp with h2 | h2
      · exact ⟨s, List.mem_cons_self s vs2, by rw [h2]; rfl⟩
      · obtain ⟨s2, hs2m, hps⟩ := ih vs2 (by simpa using hlen) p h2
        exact ⟨s2, List.mem_cons_of_mem _ hs2m, hps⟩

theorem objGet_self_of_nodup : ∀ (r : Obj), ((r.map (fun p => p.1)).Nodup) →
    ∀ p ∈ r, objGet r p.1 = p.2 := by
  intro r
  induction r with
  | nil =>
    intro _ p hp
    simp at hp
  | cons q r2 ih =>
    intro hnd p hp
    have hnd2 : (q.1 :: r2.map (fun p => p.1)).Nodup := by simpa using hnd
    rcases List.mem_cons.mp hp with h | h
    · subst h
      rw [objGet_cons]
      simp
    · rw [objGet_cons]
      have hne : (q.1 == p.1) = false := by
        apply beq_eq_false_iff_ne.mpr
        intro hh
        exact (List.nodup_cons.mp hnd2).1 (hh ▸ List.mem_map.mpr ⟨p, h, rfl⟩)
      rw [hne]
      simp only [Bool.false_eq_true, if_false]
      exact ih (by simpa using (List.nodup_cons.mp hnd2).2) p h

theorem parseVal_cellContent (v : JSVal) (h : valClean v = true) :
    parseVal (some (String.mk (cellContent v))) = v := by
  cases v with
  | vstr s =>
    obtain ⟨hA, hB, hC, hD⟩ := valClean_vstr_parts s h
    have hmk : String.mk s.data = s := by
      cases s
      rfl
    show parseVal (some (String.mk s.data)) = JSVal.vstr s
    rw [hmk]
    show (if !s.data.isEmpty && jsIsNumeric s then JSVal.vnum (jsParseFloat s)
      else JSVal.vstr s) = JSVal.vstr s
    have hcond : (!s.data.isEmpty && jsIsNumeric s) = false := by
      rw [Bool.or_eq_true] at hD
      rcases hD with h2 | h2
      · rw [h2]
        rfl
      · rw [Bool.not_eq_true'] at h2
        rw [h2, Bool.and_false]
    rw [if_neg (by rw [hcond]; exact Bool.false_ne_true)]
  | vnum n => exact parseVal_numToString n h
  | vundef => exact absurd h (by decide)
  | vnull => exact absurd h (by decide)
  | vbool b => exact absurd h (by cases b <;> decide)
  | varr es => exact absurd h (by simp [valClean])
  | vobj fs => exact absurd h (by simp [valClean])

theorem buildList_reconstruct : ∀ (r : Obj), (∀ p ∈ r, valClean p.2 = true) →
    buildList (r.map (fun p => p.1)) (r.map (fun p => String.mk (cellContent p.2))) = r := by
  intro r
  induction r with
  | nil => intro _; rfl
  | cons p r2 ih =>
    intro hcl
    show (p.1, parseVal ((String.mk (cellContent p.2) ::
      r2.map (fun p => String.mk (cellContent p.2))).head?)) ::
      buildList (r2.map (fun p => p.1)) _ = p :: r2
    rw [List.head?_cons]
    rw [parseVal_cellContent p.2 (hcl p (List.mem_cons_self p r2))]
    show (p.1, p.2) :: buildList (r2.map (fun p => p.1))
      (r2.map (fun p => String.mk (cellContent p.2))) = p :: r2
    rw [ih (fun p2 hp2 => hcl p2 (List.mem_cons_of_mem _ hp2))]

theorem row_roundtrip (headers : List String) (r : Obj)
    (hkeys : r.map (fun p => p.1) = headers) (hnd : headers.Nodup)
    (hcl : ∀ p ∈ r, valClean p.2 = true) :
    buildObj headers (splitCSVLine (serializeRowChars headers r)) = r := by
  cases r with
  | nil =>
    rw [← hkeys]
    rfl
  | cons p r2 =>
    have hne : headers ≠ [] := by
      rw [← hkeys]
      simp
    have hndk : ((p :: r2).map (fun p => p.1)).Nodup := by
      rw [hkeys]
      exact hnd
    have hvals : ∀ h2 ∈ headers, valClean (objGet (p :: r2) h2) = true := by
      intro h2 hh2
      rw [← hkeys] at hh2
      obtain ⟨p3, hp3, hp3k⟩ := List.mem_map.mp hh2
      rw [← hp3k, objGet_self_of_nodup (p :: r2) hndk p3 hp3]
      exact hcl p3 hp3
    rw [splitCSVLine_serializeRow headers (p :: r2) hne hvals]
    rw [buildObj_eq_buildList _ _ hnd]
    rw [← hkeys]
    have hmapeq : ((p :: r2).map (fun p => p.1)).map
        (fun h2 => String.mk (cellContent (objGet (p :: r2) h2))) =
        (p :: r2).map (fun p => String.mk (cellContent p.2)) := by
      rw [List.map_map]
      apply List.map_congr_left
      intro p3 hp3
      show String.mk (cellContent (objGet (p :: r2) p3.1)) = _
      rw [objGet_self_of_nodup (p :: r2) hndk p3 hp3]
    rw [hmapeq]
    exact buildList_reconstruct (p :: r2) hcl

theorem mem_joinWithChar (sep : Char) : ∀ (ps : List (List Char)) (c : Char),
    c ∈ joinWithChar sep ps → c = sep ∨ ∃ p ∈ ps, c ∈ p := by
  intro ps
  induction ps with
  | nil =>
    intro c hc
    simp [joinWithChar] at hc
  | cons p rest ih =>
    intro c hc
    cases rest with
    | nil =>
      right
      exact ⟨p, List.mem_cons_self p [], hc⟩
    | cons q qs =>
      have hj : joinWithChar sep (p :: q :: qs) = p ++ sep :: joinWithChar sep (q :: qs) := rfl
      rw [hj] at hc
      rcases List.mem_append.mp hc with h | h
      · right
        exact ⟨p, List.mem_cons_self p _, h⟩
      · rcases List.mem_cons.mp h with h2 | h2
        · exact Or.inl h2
        · rcases ih c h2 with h3 | ⟨p2, hp2, hc2⟩
          · exact Or.inl h3
          · exact Or.inr ⟨p2, List.mem_cons_of_mem _ hp2, hc2⟩

theorem joinWithChar_ne_nil_of_last (sep : Char) (ps : List (List Char)) (hne : ps ≠ [])
    (hlast : ∀ p, ps.getLast? = some p → p ≠ []) : joinWithChar sep ps ≠ [] := by
  cases ps with
  | nil => exact absurd rfl hne
  | cons p rest =>
    cases rest with
    | nil => exact hlast p rfl
    | cons q qs =>
      show p ++ sep :: joinWithChar sep (q :: qs) ≠ []
      simp

theorem joinWithChar_getLast_not_ws (sep : Char) (hsep : isWS sep = false) :
    ∀ (ps : List (List Char)),
    (∀ p ∈ ps, ∀ c, p.getLast? = some c → isWS c = false) →
    ∀ c, (joinWithChar sep ps).getLast? = some c → isWS c = false := by
  intro ps
  induction ps with
  | nil =>
    intro _ c hc
    simp [joinWithChar] at hc
  | cons p rest ih =>
    intro hps c hc
    cases rest with
    | nil => exact hps p (List.mem_cons_self p []) c hc
    | cons q qs =>
      have hj : joinWithChar sep (p :: q :: qs) = p ++ sep :: joinWithChar sep (q :: qs) := rfl
      rw [hj, List.getLast?_append] at hc
      obtain ⟨y, hy⟩ : ∃ y, (sep :: joinWithChar sep (q :: qs)).getLast? = some y := by
        cases hgl : (sep :: joinWithChar sep (q :: qs)).getLast? with
        | none => simp at hgl
        | some y => exact ⟨y, rfl⟩
      rw [hy] at hc
      have hyc : y = c := by
        have h2 : (some y).or (p.getLast?) = some y := rfl
        rw [h2] at hc
        injection hc
      subst hyc
      cases hJ : joinWithChar sep (q :: qs) with
      | nil =>
        rw [hJ] at hy
        simp at hy
        rw [← hy]
        exact hsep
      | cons x xs =>
        rw [hJ, List.getLast?_cons_cons] at hy
        exact ih (fun p2 hp2 => hps p2 (List.mem_cons_of_mem _ hp2)) y (by rw [hJ]; exact hy)

theorem joinWithChar_getLast_not_ws_strict (sep : Char) :
    ∀ (ps : List (List Char)),
    (∀ p ∈ ps, ∀ c, p.getLast? = some c → isWS c = false) →
    (∀ p, ps.getLast? = some p → p ≠ []) →
    ∀ c, (joinWithChar sep ps).getLast? = some c → isWS c = false := by
  intro ps
  induction ps with
  | nil =>
    intro _ _ c hc
    simp [joinWithChar] at hc
  | cons p rest ih =>
    intro hps hlast c hc
    cases rest with
    | nil => exact hps p (List.mem_cons_self p []) c hc
    | cons q qs =>
      have hj : joinWithChar sep (p :: q :: qs) = p ++ sep :: joinWithChar sep (q :: qs) := rfl
      rw [hj, List.getLast?_append] at hc
      have hJne : joinWithChar sep (q :: qs) ≠ [] := by
        apply joinWithChar_ne_nil_of_last sep (q :: qs) (by simp)
        intro p2 hp2
        apply hlast p2
        rw [List.getLast?_cons_cons]
        exact hp2
      obtain ⟨y, hy⟩ : ∃ y, (sep :: joinWithChar sep (q :: qs)).getLast? = some y := by
        cases hgl : (sep :: joinWithChar sep (q :: qs)).getLast? with
        | none => simp at hgl
        | some y => exact ⟨y, rfl⟩
      rw [hy] at hc
      have hyc : y = c := by
        have h2 : (some y).or (p.getLast?) = some y := rfl
        rw [h2] at hc
        injection hc
      subst hyc
      cases hJ : joinWithChar sep (q :: qs) with
      | nil => exact absurd hJ hJne
      | cons x xs =>
        rw [hJ, List.getLast?_cons_cons] at hy
        refine ih (fun p2 hp2 => hps p2 (List.mem_cons_of_mem _ hp2)) ?_ y (by rw [hJ]; exact hy)
        intro p2 hp2
        apply hlast p2
        rw [List.getLast?_cons_cons]
        exact hp2

theorem joinWithChar_head_cons (sep : Char) (p : List Char) (rest : List (List Char))
    (c : Char) (hc : p.head? = some c) :
    (joinWithChar sep (p :: rest)).head? = some c := by
  cases rest with
  | nil => exact hc
  | cons q qs =>
    show (p ++ sep :: joinWithChar sep (q :: qs)).head? = some c
    exact head?_append_left _ _ c hc

theorem trimChars_cons_of_head (c : Char) (cs : List Char) (hc : isWS c = false) :
    ∃ w, trimChars (c :: cs) = c :: w := by
  have h1 : (c :: cs).dropWhile isWS = c :: cs := by
    simp [List.dropWhile_cons, hc]
  have hkey : trimChars (c :: cs) = ((c :: cs).reverse.dropWhile isWS).reverse := by
    unfold trimChars
    rw [h1]
  have hpre : ((c :: cs).reverse.dropWhile isWS).reverse <+: (c :: cs) := by
    have hsuf : ((c :: cs).reverse.dropWhile isWS) <:+ (c :: cs).reverse :=
      List.dropWhile_suffix _
    have h3 := List.reverse_prefix.mpr hsuf
    simpa using h3
  have hne : ((c :: cs).reverse.dropWhile isWS).reverse ≠ [] := by
    intro h
    have h2 : (c :: cs).reverse.dropWhile isWS = [] := by
      have h4 := congrArg List.reverse h
      simpa using h4
    rw [List.dropWhile_eq_nil_iff] at h2
    have h5 := h2 c (by simp)
    rw [hc] at h5
    exact Bool.false_ne_true h5
  cases hb : ((c :: cs).reverse.dropWhile isWS).reverse with
  | nil => exact absurd hb hne
  | cons x xs =>
    obtain ⟨t, ht⟩ := hpre
    rw [hb] at ht
    simp only [List.cons_append, List.cons.injEq] at ht
    exact ⟨xs, by rw [hkey, hb, ht.1]⟩

theorem splitOnChar_cons_head (sep c : Char) (cs : List Char) (h : c ≠ sep) :
    ∃ p ps, splitOnChar sep (c :: cs) = (c :: p) :: ps := by
  show ∃ p ps, (if c = sep then [] :: splitOnChar sep cs
    else match splitOnChar sep cs with
      | [] => [[c]]
      | p :: ps => (c :: p) :: ps) = (c :: p) :: ps
  rw [if_neg h]
  cases hsp : splitOnChar sep cs with
  | nil => exact absurd hsp (splitOnChar_ne_nil sep cs)
  | cons p ps => exact ⟨p, ps, rfl⟩

theorem trimChars_append_newline (J : List Char)
    (hhead : ∀ c, J.head? = some c → isWS c = false)
    (hlast : ∀ c, J.getLast? = some c → isWS c = false) :
    trimChars (J ++ ['\n']) = J := by
  cases J with
  | nil => decide
  | cons a J2 =>
    have ha : isWS a = false := hhead a rfl
    have h1 : ((a :: J2) ++ ['\n']).dropWhile isWS = (a :: J2) ++ ['\n'] := by
      apply dropWhile_eq_self_of_head
      intro c hc
      simp only [List.cons_append, List.head?_cons, Option.some.injEq] at hc
      rw [← hc]
      exact ha
    have hkey : trimChars ((a :: J2) ++ ['\n']) =
        (((a :: J2) ++ ['\n']).reverse.dropWhile isWS).reverse := by
      unfold trimChars
      rw [h1]
    have h2 : ((a :: J2) ++ ['\n']).reverse = '\n' :: (a :: J2).reverse := by
      simp
    have h3 : ('\n' :: (a :: J2).reverse).dropWhile isWS = (a :: J2).reverse.dropWhile isWS := by
      rw [List.dropWhile_cons, if_pos (by decide : isWS '\n' = true)]
    have h4 : (a :: J2).reverse.dropWhile isWS = (a :: J2).reverse := by
      apply dropWhile_eq_self_of_head
      intro c hc
      rw [List.head?_reverse] at hc
      exact hlast c hc
    rw [hkey, h2, h3, h4, List.reverse_reverse]

theorem csvEscapeVal_last_not_ws (v : JSVal) (h : valClean v = true) :
    ∀ c, (csvEscapeVal v).getLast? = some c → isWS c = false := by
  intro c hc
  cases v with
  | vstr s =>
    obtain ⟨hA, hB, hC, hD⟩ := valClean_vstr_parts s h
    have hanyq : s.data.any (fun c => c = '"') = false := by
      rw [List.any_eq_false]
      intro d hdm
      simp only [decide_eq_true_eq]
      intro hdq
      exact hB (hdq ▸ hdm)
    cases hcomma : s.data.any (fun c => c = ',') with
    | true =>
      have hcell : csvEscapeVal (.vstr s) = ('"' :: escQuote s.data) ++ ['"'] := by
        show (if s.data.any (fun c => c = ',') || s.data.any (fun c => c = '"') then
          '"' :: (escQuote s.data ++ ['"']) else s.data) = _
        rw [hcomma, hanyq]
        simp
      rw [hcell, List.getLast?_concat] at hc
      simp only [Option.some.injEq] at hc
      rw [← hc]
      decide
    | false =>
      have hcell : csvEscapeVal (.vstr s) = s.data := by
        show (if s.data.any (fun c => c = ',') || s.data.any (fun c => c = '"') then
          '"' :: (escQuote s.data ++ ['"']) else s.data) = _
        rw [hcomma, hanyq]
        rfl
      rw [hcell] at hc
      exact ((trimChars_eq_self_iff s.data).mp hA).2 c hc
  | vnum n =>
    have hc2 : c ∈ (numToString n).data := getLast?_mem_list hc
    exact (numToString_chars n h c hc2).1
  | vundef => exact absurd h (by decide)
  | vnull => exact absurd h (by decide)
  | vbool b => exact absurd h (by cases b <;> decide)
  | varr es => exact absurd h (by simp [valClean])
  | vobj fs => exact absurd h (by simp [valClean])

theorem csvEscapeVal_no_nl (v : JSVal) (h : valClean v = true) :
    '\n' ∉ csvEscapeVal v := by
  intro hm
  cases v with
  | vstr s =>
    obtain ⟨hA, hB, hC, hD⟩ := valClean_vstr_parts s h
    have hmem : '\n' ∈ '"' :: (escQuote s.data ++ ['"']) ∨ '\n' ∈ s.data := by
      by_cases hcond : (s.data.any (fun c => c = ',') || s.data.any (fun c => c = '"')) = true
      · left
        have hcell : csvEscapeVal (.vstr s) = '"' :: (escQuote s.data ++ ['"']) := by
          show (if s.data.any (fun c => c = ',') || s.data.any (fun c => c = '"') then
            '"' :: (escQuote s.data ++ ['"']) else s.data) = _
          rw [if_pos hcond]
        rwa [hcell] at hm
      · right
        have hcell : csvEscapeVal (.vstr s) = s.data := by
          show (if s.data.any (fun c => c = ',') || s.data.any (fun c => c = '"') then
            '"' :: (escQuote s.data ++ ['"']) else s.data) = _
          rw [if_neg hcond]
        rwa [hcell] at hm
    rcases hmem with h2 | h2
    · rw [escQuote_of_no_quote _ hB] at h2
      rcases List.mem_cons.mp h2 with h3 | h3
      · exact absurd h3 (by decide)
      · rcases List.mem_append.mp h3 with h4 | h4
        · exact hC h4
        · simp at h4
    · exact hC h2
  | vnum n => exact (numToString_chars n h '\n' hm).2.2.2 rfl
  | vundef => exact absurd h (by decide)
  | vnull => exact absurd h (by decide)
  | vbool b => exact absurd h (by cases b <;> decide)
  | varr es => exact absurd h (by simp [valClean])
  | vobj fs => exact absurd h (by simp [valClean])

theorem serializeRow_last_not_ws (headers : List String) (r : Obj)
    (hvals : ∀ h2 ∈ headers, valClean (objGet r h2) = true) :
    ∀ c, (serializeRowChars headers r).getLast? = some c → isWS c = false := by
  apply joinWithChar_getLast_not_ws ',' (by decide)
  intro p hp c hc
  obtain ⟨h2, hh2, hh2e⟩ := List.mem_map.mp hp
  rw [← hh2e] at hc
  exact csvEscapeVal_last_not_ws _ (hvals h2 hh2) c hc

theorem serializeRow_no_nl (headers : List String) (r : Obj)
    (hvals : ∀ h2 ∈ headers, valClean (objGet r h2) = true) :
    '\n' ∉ serializeRowChars headers r := by
  intro hm
  rcases mem_joinWithChar ',' _ '\n' hm with h | ⟨p, hp, hc⟩
  · exact absurd h (by decide)
  · obtain ⟨h2, hh2, hh2e⟩ := List.mem_map.mp hp
    rw [← hh2e] at hc
    exact csvEscapeVal_no_nl _ (hvals h2 hh2) hc

theorem parsed_record_ok (headers : List String) (line : List Char)
    (hnd : headers.Nodup) (hlen : headers.length ≤ (splitCSVLine line).length)
    (hnl : '\n' ∉ line) :
    ((buildObj headers (splitCSVLine line)).map (fun p => p.1) = headers) ∧
    (∀ p ∈ buildObj headers (splitCSVLine line), valClean p.2 = true) := by
  constructor
  · exact buildObj_keys _ _ hnd
  · intro p hp
    rw [buildObj_eq_buildList _ _ hnd] at hp
    obtain ⟨s, hsmem, hps⟩ := buildList_vals headers _ hlen p hp
    rw [hps]
    exact parseVal_field_clean line hnl s hsmem

theorem parseCSVchars_eq (cs : List Char) (l0 : List Char) (rest : List (List Char))
    (h : splitOnChar '\n' (trimChars cs) = l0 :: rest) :
    parseCSVchars cs = rest.map (fun line =>
      buildObj ((splitOnChar ',' l0).map (fun h2 => String.mk (trimChars h2)))
        (splitCSVLine line)) := by
  unfold parseCSVchars
  rw [h]

theorem serialize_parse_records (headers : List String) (records : List Obj)
    (hnd : headers.Nodup)
    (hkeys : ∀ r ∈ records, r.map (fun p => p.1) = headers)
    (hcl : ∀ r ∈ records, ∀ p ∈ r, valClean p.2 = true)
    (hne : records ≠ [])
    (hhead : ∃ c0, (joinWithChar ',' (headers.map String.data)).head? = some c0 ∧
      isWS c0 = false)
    (hhnl : ∀ h2 ∈ headers, '\n' ∉ h2.data)
    (hhtrim : ∀ h2 ∈ headers, trimChars h2.data = h2.data)
    (hhcomma : ∀ h2 ∈ headers, ',' ∉ h2.data)
    (hlastrow : records.getLast?.map (serializeRowChars headers) ≠ some []) :
    parseCSVchars (serializeCSVchars records) = records := by
  obtain ⟨c0, hc0some, hc0ws⟩ := hhead
  cases records with
  | nil => exact absurd rfl hne
  | cons r0 rs =>
    have hk0 : r0.map (fun p => p.1) = headers := hkeys r0 (List.mem_cons_self r0 rs)
    have hser : serializeCSVchars (r0 :: rs) =
        joinWithChar '\n' (joinWithChar ',' (headers.map String.data) ::
          (r0 :: rs).map (serializeRowChars headers)) ++ ['\n'] := by
      show joinWithChar '\n' (joinWithChar ',' ((r0.map (fun p => p.1)).map String.data) ::
          (r0 :: rs).map (serializeRowChars (r0.map (fun p => p.1)))) ++ ['\n'] = _
      rw [hk0]
    have hvals : ∀ r ∈ r0 :: rs, ∀ h2 ∈ headers, valClean (objGet r h2) = true := by
      intro r hr h2 hh2
      have hk := hkeys r hr
      rw [← hk] at hh2
      obtain ⟨p3, hp3, hp3k⟩ := List.mem_map.mp hh2
      have hndk : (r.map (fun p => p.1)).Nodup := by
        rw [hk]
        exact hnd
      rw [← hp3k, objGet_self_of_nodup r hndk p3 hp3]
      exact hcl r hr p3 hp3
    have hJhead : (joinWithChar '\n' (joinWithChar ',' (headers.map String.data) ::
        (r0 :: rs).map (serializeRowChars headers))).head? = some c0 :=
      joinWithChar_head_cons '\n' _ _ c0 hc0some
    have hJlast : ∀ c, (joinWithChar '\n' (joinWithChar ',' (headers.map String.data) ::
        (r0 :: rs).map (serializeRowChars headers))).getLast? = some c → isWS c = false := by
      apply joinWithChar_getLast_not_ws_strict '\n'
      · intro p hp c hc
        rcases List.mem_cons.mp hp with h | h
        · subst h
          refine joinWithChar_getLast_not_ws ',' (by decide) _ ?_ c hc
          intro p2 hp2 c2 hc2
          obtain ⟨h2, hh2, hh2e⟩ := List.mem_map.mp hp2
          rw [← hh2e] at hc2
          exact ((trimChars_eq_self_iff h2.data).mp (hhtrim h2 hh2)).2 c2 hc2
        · obtain ⟨r, hr, hre⟩ := List.mem_map.mp h
          rw [← hre] at hc
          exact serializeRow_last_not_ws headers r (hvals r hr) c hc
      · intro p hp hpnil
        apply hlastrow
        have h5 : (joinWithChar ',' (headers.map String.data) ::
            (r0 :: rs).map (serializeRowChars headers)).getLast? =
            ((r0 :: rs).map (serializeRowChars headers)).getLast? := by
          rw [show (r0 :: rs).map (serializeRowChars headers) =
            serializeRowChars headers r0 :: rs.map (serializeRowChars headers) from rfl]
          exact List.getLast?_cons_cons
        rw [h5] at hp
        rw [← List.getLast?_map, hp, hpnil]
    have htrim : trimChars (serializeCSVchars (r0 :: rs)) =
        joinWithChar '\n' (joinWithChar ',' (headers.map String.data) ::
          (r0 :: rs).map (serializeRowChars headers)) := by
      rw [hser]
      refine trimChars_append_newline _ ?_ hJlast
      intro c hc
      rw [hJhead] at hc
      injection hc with h2
      rw [← h2]
      exact hc0ws
    have hsplit : splitOnChar '\n' (joinWithChar '\n'
        (joinWithChar ',' (headers.map String.data) ::
          (r0 :: rs).map (serializeRowChars headers))) =
        joinWithChar ',' (headers.map String.data) ::
          (r0 :: rs).map (serializeRowChars headers) := by
      apply splitOnChar_joinWithChar
      · intro p hp
        rcases List.mem_cons.mp hp with h | h
        · subst h
          intro hm
          rcases mem_joinWithChar ',' _ '\n' hm with h2 | ⟨p2, hp2, hc2⟩
          · exact absurd h2 (by decide)
          · obtain ⟨h3, hh3, hh3e⟩ := List.mem_map.mp hp2
            rw [← hh3e] at hc2
            exact hhnl h3 hh3 hc2
        · obtain ⟨r, hr, hre⟩ := List.mem_map.mp h
          rw [← hre]
          exact serializeRow_no_nl headers r (hvals r hr)
      · simp
    have hmapne : headers.map String.data ≠ [] := by
      intro h
      rw [h] at hc0some
      simp [joinWithChar] at hc0some
    have hhdr : (splitOnChar ',' (joinWithChar ',' (headers.map String.data))).map
        (fun h2 => String.mk (trimChars h2)) = headers := by
      rw [splitOnChar_joinWithChar ',' (headers.map String.data) ?_ hmapne]
      · rw [List.map_map]
        have hcongr : ∀ h2 ∈ headers,
            String.mk (trimChars h2.data) = h2 := by
          intro h2 hh2
          rw [hhtrim h2 hh2]
        calc headers.map (fun h2 => String.mk (trimChars h2.data)) =
            headers.map id := List.map_congr_left hcongr
          _ = headers := List.map_id headers
      · intro p hp
        obtain ⟨h2, hh2, hh2e⟩ := List.mem_map.mp hp
        rw [← hh2e]
        exact hhcomma h2 hh2
    rw [parseCSVchars_eq (serializeCSVchars (r0 :: rs))
      (joinWithChar ',' (headers.map String.data))
      ((r0 :: rs).map (serializeRowChars headers))
      (by rw [htrim]; exact hsplit)]
    rw [hhdr, List.map_map]
    have hrows : ∀ r ∈ r0 :: rs,
        buildObj headers (splitCSVLine (serializeRowChars headers r)) = r := by
      intro r hr
      exact row_roundtrip headers r (hkeys r hr) hnd (hcl r hr)
    calc (r0 :: rs).map ((fun line => buildObj headers (splitCSVLine line)) ∘
        serializeRowChars headers) = (r0 :: rs).map id :=
        List.map_congr_left (fun r hr => hrows r hr)
      _ = r0 :: rs := List.map_id _

theorem mem_of_mem_splitOnChar (sep : Char) : ∀ (cs : List Char) (p : List Char),
    p ∈ splitOnChar sep cs → ∀ c ∈ p, c ∈ cs := by
  intro cs
  induction cs with
  | nil =>
    intro p hp c hc
    simp [splitOnChar] at hp
    rw [hp] at hc
    simp at hc
  | cons a rest ih =>
    intro p hp c hc
    by_cases ha : a = sep
    · rw [show splitOnChar sep (a :: rest) = [] :: splitOnChar sep rest from by
        show (if a = sep then [] :: splitOnChar sep rest else _) = _
        rw [if_pos ha]] at hp
      rcases List.mem_cons.mp hp with h | h
      · rw [h] at hc
        simp at hc
      · exact List.mem_cons_of_mem _ (ih p h c hc)
    · rw [show splitOnChar sep (a :: rest) = (match splitOnChar sep rest with
        | [] => [[a]]
        | p1 :: ps => (a :: p1) :: ps) from by
        show (if a = sep then _ else _) = _
        rw [if_neg ha]] at hp
      cases hsp : splitOnChar sep rest with
      | nil => exact absurd hsp (splitOnChar_ne_nil _ _)
      | cons p1 ps =>
        rw [hsp] at hp
        rcases List.mem_cons.mp hp with h | h
        · rw [h] at hc
          rcases List.mem_cons.mp hc with h2 | h2
          · exact h2 ▸ List.mem_cons_self a rest
          · exact List.mem_cons_of_mem _
              (ih p1 (hsp ▸ List.mem_cons_self p1 ps) c h2)
        · exact List.mem_cons_of_mem _
            (ih p (hsp ▸ List.mem_cons_of_mem p1 h) c hc)

/-! ## The claims -/

/-- C1 counterexample: the text `"h\nx\n\"\""` parses to two records, but
the serialization of its last record (whose only field is the empty
string) is the empty row, which the leading `text.trim()` of the reparse
strips away together with its newline — the round trip returns one
record, not two. -/
theorem c1_counterexample :
    parseCSV "h\nx\n\"\"" = [[("h", JSVal.vstr "x")], [("h", JSVal.vstr "")]] ∧
    parseCSV (serializeCSV (parseCSV "h\nx\n\"\"")) = [[("h", JSVal.vstr "x")]] :=
  ⟨rfl, rfl⟩

/-- C1 (amended): the round trip `parseCSV ∘ serialize ∘ parseCSV = parseCSV`
holds for every text whose header names are distinct, whose data lines
each carry at least as many fields as there are headers (so no field is
back-filled with `undefined`), and whose last parsed record does not
serialize to the empty row (which the reparse's leading `trim()` would
strip).  The counterexample `"h\nx\n\"\""` violates only the last
hypothesis and fails the round trip, so the original unqualified claim
is false. -/
theorem c1_amended (t : String)
    (h1 : (csvHeadersOf t).Nodup)
    (h2 : ∀ line ∈ csvDataLines t, (csvHeadersOf t).length ≤ (splitCSVLine line).length)
    (h3 : (parseCSV t).getLast?.map (serializeRowChars (csvHeadersOf t)) ≠ some []) :
    parseCSV (serializeCSV (parseCSV t)) = parseCSV t := by
  cases hlines : splitOnChar '\n' (trimChars t.data) with
  | nil => exact absurd hlines (splitOnChar_ne_nil _ _)
  | cons l0 dls =>
    have hH : csvHeadersOf t = (splitOnChar ',' l0).map (fun h2 => String.mk (trimChars h2)) := by
      unfold csvHeadersOf
      rw [hlines]
    have hD : csvDataLines t = dls := by
      unfold csvDataLines
      rw [hlines]
      rfl
    have hP : parseCSV t = dls.map (fun line =>
        buildObj ((splitOnChar ',' l0).map (fun h2 => String.mk (trimChars h2)))
          (splitCSVLine line)) := parseCSVchars_eq t.data l0 dls hlines
    rw [hH] at h1 h2 h3
    rw [hD] at h2
    rw [hP] at h3 ⊢
    cases dls with
    | nil =>
      simp only [List.map_nil]
      rfl
    | cons d0 drest =>
      set H := (splitOnChar ',' l0).map (fun h2 => String.mk (trimChars h2)) with hHdef
      have hlineNL : ∀ line ∈ d0 :: drest, '\n' ∉ line := by
        intro line hl
        exact splitOnChar_sep_free '\n' (trimChars t.data) line
          (by rw [hlines]; exact List.mem_cons_of_mem _ hl)
      have hl0mem : l0 ∈ splitOnChar '\n' (trimChars t.data) := by
        rw [hlines]
        exact List.mem_cons_self _ _
      have hl0NL : '\n' ∉ l0 := splitOnChar_sep_free '\n' (trimChars t.data) l0 hl0mem
      have hmemH : ∀ h2 ∈ H, ∃ piece ∈ splitOnChar ',' l0,
          h2 = String.mk (trimChars piece) := by
        intro h2 hh2
        rw [hHdef] at hh2
        obtain ⟨piece, hp, he⟩ := List.mem_map.mp hh2
        exact ⟨piece, hp, he.symm⟩
      have hhnl : ∀ h2 ∈ H, '\n' ∉ h2.data := by
        intro h2 hh2 hm
        obtain ⟨piece, hp, he⟩ := hmemH h2 hh2
        rw [he] at hm
        exact hl0NL (mem_of_mem_splitOnChar ',' l0 piece hp '\n' (mem_trimChars hm))
      have hhtrim : ∀ h2 ∈ H, trimChars h2.data = h2.data := by
        intro h2 hh2
        obtain ⟨piece, hp, he⟩ := hmemH h2 hh2
        rw [he]
        exact trimChars_idem piece
      have hhcomma : ∀ h2 ∈ H, ',' ∉ h2.data := by
        intro h2 hh2 hm
        obtain ⟨piece, hp, he⟩ := hmemH h2 hh2
        rw [he] at hm
        exact splitOnChar_sep_free ',' l0 piece hp (mem_trimChars hm)
      have hTne : trimChars t.data ≠ [] := by
        intro h
        rw [h] at hlines
        simp [splitOnChar] at hlines
      have hhead : ∃ c0, (joinWithChar ',' (H.map String.data)).head? = some c0 ∧
          isWS c0 = false := by
        cases hT2 : trimChars t.data with
        | nil => exact absurd hT2 hTne
        | cons c0 T2 =>
          have hc0 : isWS c0 = false := trimChars_head_not_ws t.data c0 (by rw [hT2]; rfl)
          have hc0nl : c0 ≠ '\n' := by
            intro h
            rw [h] at hc0
            exact absurd hc0 (by decide)
          obtain ⟨p, ps, hps⟩ := splitOnChar_cons_head '\n' c0 T2 hc0nl
          rw [hT2, hps] at hlines
          have hl0eq : l0 = c0 :: p := by
            injection hlines with ha hb
            exact ha.symm
          by_cases hc0c : c0 = ','
          · have hsplitl0 : splitOnChar ',' l0 = [] :: splitOnChar ',' p := by
              rw [hl0eq]
              show (if c0 = ',' then [] :: splitOnChar ',' p else _) = _
              rw [if_pos hc0c]
            cases hsp : splitOnChar ',' p with
            | nil => exact absurd hsp (splitOnChar_ne_nil _ _)
            | cons q qs =>
              refine ⟨',', ?_, by decide⟩
              rw [hHdef, hsplitl0, hsp]
              rfl
          · obtain ⟨p2, ps2, hps2⟩ := splitOnChar_cons_head ',' c0 p hc0c
            obtain ⟨w, hw⟩ := trimChars_cons_of_head c0 p2 hc0
            refine ⟨c0, ?_, hc0⟩
            rw [hHdef, hl0eq, hps2]
            simp only [List.map_cons]
            apply joinWithChar_head_cons
            show (trimChars (c0 :: p2)).head? = some c0
            rw [hw]
            rfl
      have hrecords : ∀ r ∈ (d0 :: drest).map (fun line => buildObj H (splitCSVLine line)),
          (r.map (fun p => p.1) = H) ∧ ∀ p ∈ r, valClean p.2 = true := by
        intro r hr
        obtain ⟨line, hl, he⟩ := List.mem_map.mp hr
        rw [← he]
        exact parsed_record_ok H line h1 (h2 line hl) (hlineNL line hl)
      exact serialize_parse_records H _ h1
        (fun r hr => (hrecords r hr).1)
        (fun r hr => (hrecords r hr).2)
        (by simp)
        hhead hhnl hhtrim hhcomma h3

/-- C1 witness: the amended round trip at a concrete text exercising a
quoted comma-bearing field, a fractional number, and a negative
integer. -/
theorem c1_amended_witness :
    parseCSV (serializeCSV (parseCSV "name,score\n\"a,b\",1.25\nc,-3")) =
      parseCSV "name,score\n\"a,b\",1.25\nc,-3" :=
  c1_amended "name,score\n\"a,b\",1.25\nc,-3" (by decide) (by decide) (by decide)

/-- C2 counterexample: an embedded doubled quote does not parse to one
literal quote character; both quote characters are consumed as toggles,
so the field `"a""b"` parses to the value `ab`, not `a"b`. -/
theorem c2_counterexample :
    parseCSV "h\n\"a\"\"b\"" = [[("h", JSVal.vstr "ab")]] ∧
    ¬ parseCSV "h\n\"a\"\"b\"" = [[("h", JSVal.vstr "a\"b")]] := by
  refine ⟨rfl, fun h => ?_⟩
  have h2 : [[("h", JSVal.vstr "ab")]] = [[("h", JSVal.vstr "a\"b")]] := by
    rw [← h]; rfl
  simp only [List.cons.injEq, Prod.mk.injEq, JSVal.vstr.injEq, and_true, true_and] at h2
  exact absurd h2 (by decide)

/-- C2 amended: `parseCSV` tracks quote state character by character,
and a field wrapped in quotes keeps its literal commas in the parsed
value (the scan returns the quoted content verbatim, trimmed); however,
an embedded quote escaped as a doubled quote is dropped rather than
unescaped: both characters toggle the flag and neither is emitted, so
`"a""b"` scans to `ab`. -/
theorem c2_amended (s t : List Char) (hs : '"' ∉ s) (ht : '"' ∉ t) :
    splitCSVLine ('"' :: (s ++ ['"'])) = [String.mk (trimChars s)] ∧
    splitCSVLine ('"' :: (s ++ '"' :: '"' :: (t ++ ['"']))) =
      [String.mk (trimChars (s ++ t))] := by
  constructor
  · show scanGo ('"' :: (s ++ '"' :: [])) [] false = [String.mk (trimChars s)]
    rw [scanGo_quoted_field s hs, scanGo_nil]
    simp
  · show scanGo ('"' :: (s ++ '"' :: '"' :: (t ++ ['"']))) [] false =
      [String.mk (trimChars (s ++ t))]
    rw [scanGo_quoted_field s hs, scanGo_open_quote, Bool.not_false,
      scanGo_accum_quoted t ht, scanGo_open_quote, Bool.not_true, scanGo_nil]
    simp

/-- C2 witness: the amended behavior at the concrete fields `"a,b"` and
`"x""y"`. -/
theorem c2_amended_witness :
    splitCSVLine ('"' :: ("a,b".data ++ ['"'])) = [String.mk (trimChars "a,b".data)] ∧
    splitCSVLine ('"' :: ("x".data ++ '"' :: '"' :: ("y".data ++ ['"']))) =
      [String.mk (trimChars ("x".data ++ "y".data))] :=
  ⟨(c2_amended "a,b".data "y".data (by decide) (by decide)).1,
    (c2_amended "x".data "y".data (by decide) (by decide)).2⟩

/-- C5 counterexample: for an array-shaped result whose element carries
its own `id`, the written row keeps the element id (99), not the
writer counter value (0); the counter is still advanced. -/
theorem c5_counterexample :
    (flattenWriteRows ⟨"f.jpg", .varr [.vobj [("id", .vnum (.rat 99))]], .vundef, 0, .vundef⟩
        0).1 = [[("id", JSVal.vnum (.rat 99))]] ∧
    (flattenWriteRows ⟨"f.jpg", .varr [.vobj [("id", .vnum (.rat 99))]], .vundef, 0, .vundef⟩
        0).2 = 1 ∧
    ¬ JSVal.vnum (.rat 99) = JSVal.vnum (.rat 0) := by
  refine ⟨rfl, rfl, fun h => ?_⟩
  simp only [JSVal.vnum.injEq, JNum.rat.injEq] at h
  exact absurd h (by decide)

/-- C5 amended: the writer counter advances by one per flattened row in
every branch, and every row of a non-array-shaped result (quad-box,
axis-box, stringified-object, primitive) carries the counter value as
its `id`; for an array-shaped result, however, the spread `{id: rowId++,
...r}` lets an `id` field already present on the source element
overwrite the counter value, so the counter id is only the default. -/
theorem c5_amended :
    (∀ (item : ResultItem) (rid : ℕ),
      (flattenWriteRows item rid).2 = rid + (flattenWriteRows item rid).1.length) ∧
    (∀ (item : ResultItem) (rid : ℕ), (∀ es, item.result ≠ .varr es) →
      (flattenWriteRows item rid).1.map (fun r => objGet r "id") =
        (List.range (flattenWriteRows item rid).1.length).map
          (fun i : ℕ => JSVal.vnum (.rat (rid + i)))) ∧
    (∀ (item : ResultItem) (rid : ℕ) (es : List JSVal), item.result = .varr es →
      (flattenWriteRows item rid).1 = es.enum.map (fun p => spreadWithId (rid + p.1) p.2)) ∧
    (∀ (rid : ℕ) (v : JSVal), ((spreadFields v).map (fun p => p.1)).Nodup →
      objGet (spreadWithId rid v) "id" =
        if hasKeyName (spreadFields v) "id" then objGet (spreadFields v) "id"
        else .vnum (.rat rid)) := by
  refine ⟨?_, ?_, ?_, ?_⟩
  · exact flattenWriteRows_counter
  · intro item rid hnot
    unfold flattenWriteRows
    split
    · simp only [List.map_map, List.length_map, List.length_range]
      apply List.map_congr_left
      intro i _
      simp only [Function.comp_apply]
      rw [objGet_quadRow_id]
      norm_cast
    · split
      · simp only [List.map_map, List.length_map, List.length_range]
        apply List.map_congr_left
        intro i _
        simp only [Function.comp_apply]
        rw [objGet_bboxRow_id]
        norm_cast
      · split
        · rename_i es heq
          exact absurd heq (hnot es)
        · split
          · simp only [List.map_cons, List.map_nil, List.length_cons, List.length_nil]
            rw [objGet_cons]
            simp [List.range_succ]
          · simp only [List.map_cons, List.map_nil, List.length_cons, List.length_nil]
            rw [objGet_cons]
            simp [List.range_succ]
  · intro item rid es hres
    unfold flattenWriteRows
    rw [hres]
    simp [jsGetField, truthy]
  · intro rid v hnd
    exact objGet_spreadWithId rid v hnd

/-- C5 witness: the amended id assignment at concrete inputs: an
axis-box item with two labels gets counter ids 5 and 6, and a spread
without a source id gets the counter value. -/
theorem c5_amended_witness :
    (flattenWriteRows ⟨"a.jpg",
        .vobj [("labels", .varr [.vstr "x", .vstr "y"]),
               ("bboxes", .varr [.varr [], .varr []])], .vundef, 0, .vundef⟩ 5).1.map
      (fun r => objGet r "id") =
      (List.range (flattenWriteRows ⟨"a.jpg",
        .vobj [("labels", .varr [.vstr "x", .vstr "y"]),
               ("bboxes", .varr [.varr [], .varr []])], .vundef, 0, .vundef⟩ 5).1.length).map
        (fun i : ℕ => JSVal.vnum (.rat (5 + i))) ∧
    objGet (spreadWithId 7 (.vobj [("x", .vstr "v")])) "id" =
      if hasKeyName (spreadFields (.vobj [("x", .vstr "v")])) "id"
      then objGet (spreadFields (.vobj [("x", .vstr "v")])) "id"
      else .vnum (.rat 7) :=
  ⟨c5_amended.2.1 _ 5 (fun es h => by simp at h),
    c5_amended.2.2.2 7 (.vobj [("x", .vstr "v")]) (by decide)⟩

/-- C7 counterexample: a record with neither `image` nor `filename` is
dropped, but the aggregate report does not count it as skipped: the run
returns `{saved: 0, failed: 0, skipped: 0}`, not `skipped = 1`. -/
theorem c7_counterexample :
    parseCSV "label\nx" = [[("label", JSVal.vstr "x")]] ∧
    cropAndSaveImagesStreaming (parseCSV "label\nx") [] = (⟨0, 0, 0⟩, []) ∧
    (cropAndSaveImagesStreaming (parseCSV "label\nx") []).1.skipped = 0 :=
  ⟨rfl, rfl, rfl⟩

/-- C7 amended: records are grouped by the `image` field with fallback
to `filename` when `image` is falsy; a record with neither truthy field
is dropped from processing entirely and is excluded from every counter
of the aggregate report (it is not counted as skipped). -/
theorem c7_amended :
    (∀ (rows : List Obj) (files : List ImgFile),
      cropAndSaveImagesStreaming (rows.filter (fun r => truthy (rowNameVal r))) files =
        cropAndSaveImagesStreaming rows files) ∧
    (∀ row : Obj, truthy (objGet row "image") = false →
      rowNameVal row = objGet row "filename") ∧
    (∀ row : Obj, truthy (objGet row "image") = true →
      rowNameVal row = objGet row "image") := by
  refine ⟨?_, ?_, ?_⟩
  · have hgo : ∀ (rows : List Obj) (gs : List (String × List Obj)),
        groupRecordsGo gs (rows.filter (fun r => truthy (rowNameVal r))) =
          groupRecordsGo gs rows := by
      intro rows
      induction rows with
      | nil => intro gs; rfl
      | cons row rest ih =>
        intro gs
        rw [List.filter_cons]
        by_cases h : truthy (rowNameVal row)
        · simp only [h, if_true]
          rw [groupRecordsGo_cons, groupRecordsGo_cons, h]
          simp only [if_true]
          exact ih _
        · have hf : truthy (rowNameVal row) = false := by simpa using h
          simp only [hf, Bool.false_eq_true, if_false]
          rw [ih, groupRecordsGo_cons, hf]
          simp only [Bool.false_eq_true, if_false]
    intro rows files
    unfold cropAndSaveImagesStreaming groupRecords
    rw [hgo rows []]
  · intro row h
    unfold rowNameVal
    rw [h]
    simp only [Bool.false_eq_true, if_false]
  · intro row h
    unfold rowNameVal
    rw [h]
    simp only [if_true]

/-- C7 witness: the amended grouping at concrete records. -/
theorem c7_amended_witness :
    cropAndSaveImagesStreaming
        ([[("label", JSVal.vstr "x")]].filter (fun r => truthy (rowNameVal r))) [] =
      cropAndSaveImagesStreaming [[("label", JSVal.vstr "x")]] [] ∧
    rowNameVal [("label", JSVal.vstr "x")] = objGet [("label", JSVal.vstr "x")] "filename" ∧
    rowNameVal [("image", JSVal.vstr "a.jpg")] = objGet [("image", JSVal.vstr "a.jpg")] "image" :=
  ⟨c7_amended.1 [[("label", JSVal.vstr "x")]] [],
    c7_amended.2.1 [("label", JSVal.vstr "x")] rfl,
    c7_amended.2.2 [("image", JSVal.vstr "a.jpg")] rfl⟩

/-- C6 counterexample: a record whose `score` field is present with the
value `0` (which is `< 0.5`) is not counted as skipped: `0` is falsy, so
`score || 1.0` replaces it by the default `1.0` and the crop is
attempted (here it fails on a non-numeric `xmin`, giving
`{saved: 0, failed: 1, skipped: 0}` instead of `skipped = 1`). -/
theorem c6_counterexample :
    objGet ((parseCSV "image,xmin,ymin,xmax,ymax,score\na.jpg,oops,1,10,10,0").headD [])
        "score" = .vnum (.rat 0) ∧
    jnumLt (.rat 0) (.rat (mkRat 1 2)) = true ∧
    cropAndSaveImagesStreaming
        (parseCSV "image,xmin,ymin,xmax,ymax,score\na.jpg,oops,1,10,10,0")
        [⟨"a.jpg", 100, 100, true⟩] = (⟨0, 1, 0⟩, []) :=
  ⟨rfl, by decide, rfl⟩

/-- C6 amended: a record whose `score` is present as a truthy (nonzero)
number less than `0.5` is counted as skipped and no crop is attempted;
in particular the CSV row with `score = 0.3` yields
`{saved: 0, failed: 0, skipped: 1}`.  (A zero score is falsy and falls
back to the default `1.0`.) -/
theorem c6_amended :
    (∀ (w h : ℚ) (fn : String) (idx : ℕ) (row : Obj) (n : JNum),
      objGet row "score" = .vnum n → truthy (.vnum n) = true →
      jnumLt n (.rat (mkRat 1 2)) = true →
      processRecord w h fn idx row = (⟨0, 0, 1⟩, [])) ∧
    cropAndSaveImagesStreaming
        (parseCSV "image,label,xmin,ymin,xmax,ymax,score\ncat.jpg,cat,10,10,50,60,0.3")
        [⟨"cat.jpg", 100, 100, true⟩] = (⟨0, 0, 1⟩, []) := by
  constructor
  · intro w h fn idx row n hsc htr hlt
    have h1 : scoreVal row = .vnum n := by
      unfold scoreVal
      rw [hsc, htr]
      simp
    have h2 : jsLtHalf (scoreVal row) = true := by
      rw [h1]
      unfold jsLtHalf
      show jnumLt n (.rat (mkRat 1 2)) = true
      exact hlt
    unfold processRecord
    rw [h2]
    simp
  · rfl

theorem sinkWrites_nil : sinkWrites [] = [] := rfl

theorem sinkWrites_progress (c t : ℕ) (f : String) (msgs : List WorkerMsg) :
    sinkWrites (.progress c t f :: msgs) = sinkWrites msgs := rfl

theorem sinkWrites_complete (n : ℕ) (tt : ℚ) (msgs : List WorkerMsg) :
    sinkWrites (.complete n tt :: msgs) = sinkWrites msgs := rfl

theorem sinkWrites_result (f : String) (out raw : JSVal) (t : ℚ) (err : JSVal)
    (msgs : List WorkerMsg) :
    sinkWrites (.result f out raw t err :: msgs) = ⟨f, out, raw, t, err⟩ :: sinkWrites msgs := rfl

theorem sinkWrites_append (a b : List WorkerMsg) :
    sinkWrites (a ++ b) = sinkWrites a ++ sinkWrites b :=
  List.filterMap_append a b _

theorem runBatchGo_cons (infer : InferCap) (task : String) (total i : ℕ)
    (img : BatchImage) (rest : List BatchImage) :
    runBatchGo infer task total i (img :: rest) =
      .progress (i + 1) total img.name ::
        (match infer i img with
         | .ok (res, t) =>
           .result img.name (batchOutput img.name task res) (jsGetField res task) t .vundef
         | .error msg => .result img.name .vundef .vundef 0 (.vstr msg)) ::
        runBatchGo infer task total (i + 1) rest := rfl

theorem batchSinkSpec_cons (infer : InferCap) (task : String) (i : ℕ)
    (img : BatchImage) (rest : List BatchImage) :
    batchSinkSpec infer task i (img :: rest) =
      (match infer i img with
       | .ok (res, t) =>
         (⟨img.name, batchOutput img.name task res, jsGetField res task, t, .vundef⟩ : ResultItem)
       | .error msg => ⟨img.name, .vundef, .vundef, 0, .vstr msg⟩) ::
        batchSinkSpec infer task (i + 1) rest := rfl

theorem sinkWrites_runBatchGo (infer : InferCap) (task : String) (total : ℕ) :
    ∀ (imgs : List BatchImage) (i : ℕ),
      sinkWrites (runBatchGo infer task total i imgs) = batchSinkSpec infer task i imgs := by
  intro imgs
  induction imgs with
  | nil => intro i; rfl
  | cons img rest ih =>
    intro i
    rw [runBatchGo_cons, batchSinkSpec_cons]
    cases hinf : infer i img with
    | ok p =>
      obtain ⟨res, t⟩ := p
      simp only [hinf]
      rw [sinkWrites_progress, sinkWrites_result, ih]
    | error msg =>
      simp only [hinf]
      rw [sinkWrites_progress, sinkWrites_result, ih]

theorem batchSinkSpec_length (infer : InferCap) (task : String) :
    ∀ (imgs : List BatchImage) (i : ℕ),
      (batchSinkSpec infer task i imgs).length = imgs.length := by
  intro imgs
  induction imgs with
  | nil => intro i; rfl
  | cons img rest ih =>
    intro i
    rw [batchSinkSpec_cons, List.length_cons, List.length_cons, ih]

theorem batchSinkSpec_filenames (infer : InferCap) (task : String) :
    ∀ (imgs : List BatchImage) (i : ℕ),
      (batchSinkSpec infer task i imgs).map (fun it => it.filename) =
        imgs.map (fun img => img.name) := by
  intro imgs
  induction imgs with
  | nil => intro i; rfl
  | cons img rest ih =>
    intro i
    rw [batchSinkSpec_cons, List.map_cons, List.map_cons, ih]
    cases hinf : infer i img with
    | ok p =>
      obtain ⟨res, t⟩ := p
      rfl
    | error msg => rfl

theorem batchSinkSpec_get_error (infer : InferCap) (task : String) :
    ∀ (imgs : List BatchImage) (i k : ℕ) (img : BatchImage) (msg : String),
      imgs.get? k = some img → infer (i + k) img = .error msg →
      (batchSinkSpec infer task i imgs).get? k =
        some ⟨img.name, .vundef, .vundef, 0, .vstr msg⟩ := by
  intro imgs
  induction imgs with
  | nil =>
    intro i k img msg h
    simp at h
  | cons im rest ih =>
    intro i k img msg hget hinf
    cases k with
    | zero =>
      simp only [List.get?_cons_zero, Option.some.injEq] at hget
      subst hget
      rw [Nat.add_zero] at hinf
      rw [batchSinkSpec_cons]
      simp only [List.get?_cons_zero, hinf]
    | succ k2 =>
      simp only [List.get?_cons_succ] at hget
      have hinf2 : infer ((i + 1) + k2) img = .error msg := by
        have h : (i + 1) + k2 = i + (k2 + 1) := by omega
        rw [h]
        exact hinf
      rw [batchSinkSpec_cons]
      simp only [List.get?_cons_succ]
      exact ih (i + 1) k2 img msg hget hinf2

/-- C6 witness: the amended skip rule at the concrete parsed `0.3`
row. -/
theorem c6_amended_witness :
    processRecord 100 100 "cat.jpg" 0
        [("image", JSVal.vstr "cat.jpg"), ("score", JSVal.vnum (.rat (mkRat 3 10)))] =
      (⟨0, 0, 1⟩, []) :=
  c6_amended.1 100 100 "cat.jpg" 0 _ (.rat (mkRat 3 10)) rfl (by decide) (by decide)

/-- C3: a batch run forwards exactly one `ResultItem` per input to the
sink, in input order (the sink write list is the per-item spec list,
with matching length and filename sequence), and when inference throws
for the item at position `k` that item carries the thrown message as
its error and `time = 0` — the loop never aborts on a failure. -/
theorem c3_batch_error_isolation (infer : InferCap) (images : List BatchImage)
    (task : String) (tt : ℚ) :
    sinkWrites (runBatch infer images task tt) = batchSinkSpec infer task 0 images ∧
    (sinkWrites (runBatch infer images task tt)).length = images.length ∧
    (sinkWrites (runBatch infer images task tt)).map (fun it => it.filename) =
      images.map (fun img => img.name) ∧
    (∀ (k : ℕ) (img : BatchImage) (msg : String),
      images.get? k = some img → infer k img = .error msg →
      (sinkWrites (runBatch infer images task tt)).get? k =
        some ⟨img.name, .vundef, .vundef, 0, .vstr msg⟩) := by
  have h0 : sinkWrites (runBatch infer images task tt) = batchSinkSpec infer task 0 images := by
    unfold runBatch
    rw [sinkWrites_append, sinkWrites_runBatchGo, sinkWrites_complete, sinkWrites_nil,
      List.append_nil]
  refine ⟨h0, ?_, ?_, ?_⟩
  · rw [h0, batchSinkSpec_length]
  · rw [h0, batchSinkSpec_filenames]
  · intro k img msg hget hinf
    rw [h0]
    exact batchSinkSpec_get_error infer task images 0 k img msg hget
      (by rw [Nat.zero_add]; exact hinf)

/-- C3 witness: a three-image batch whose second item throws still
yields three sink writes in order, the second carrying the message and
zero time. -/
theorem c3_witness :
    (sinkWrites (runBatch
        (fun i _ => if i = 1 then .error "boom" else .ok (.vstr "cap", 5))
        [⟨"a.png", "u1"⟩, ⟨"b.png", "u2"⟩, ⟨"c.png", "u3"⟩] "<OD>" 0)).length = 3 ∧
    (sinkWrites (runBatch
        (fun i _ => if i = 1 then .error "boom" else .ok (.vstr "cap", 5))
        [⟨"a.png", "u1"⟩, ⟨"b.png", "u2"⟩, ⟨"c.png", "u3"⟩] "<OD>" 0)).get? 1 =
      some ⟨"b.png", .vundef, .vundef, 0, .vstr "boom"⟩ := by
  refine ⟨?_, ?_⟩
  · exact (c3_batch_error_isolation
      (fun i _ => if i = 1 then .error "boom" else .ok (.vstr "cap", 5))
      [⟨"a.png", "u1"⟩, ⟨"b.png", "u2"⟩, ⟨"c.png", "u3"⟩] "<OD>" 0).2.1
  · exact (c3_batch_error_isolation
      (fun i _ => if i = 1 then .error "boom" else .ok (.vstr "cap", 5))
      [⟨"a.png", "u1"⟩, ⟨"b.png", "u2"⟩, ⟨"c.png", "u3"⟩] "<OD>" 0).2.2.2 1 ⟨"b.png", "u2"⟩
      "boom" rfl rfl

/-- C9: the Aggregate-JSON sink writes the literal prefix on
`initialize` and the literal suffix `\n]\n` on `finalize`, so a run
with zero `writeResult` calls produces exactly the text `[\n\n]\n`,
which is a valid empty JSON array once whitespace is stripped. -/
theorem c9_json_empty_run (task : JSVal) :
    (jsonInit task).out = "[\n".data ∧
    jsonFinalize (jsonInit task) =
      .ok { writable := false, isFirst := true, task := task, out := "[\n\n]\n".data } ∧
    (jsonInit task).out ++ "\n]\n".data = "[\n\n]\n".data ∧
    isEmptyJSONArrayText "[\n\n]\n".data = true := by
  refine ⟨rfl, ?_, rfl, by decide⟩
  rfl

/-- C10: for both the Aggregate-JSON and the Flattened-CSV sink,
`finalize` leaves the writable handle null, and a second `finalize`
returns the same state: no error is raised and no further bytes are
written (in particular the JSON closing bracket is never appended
twice). -/
theorem c10_finalize_idempotent :
    (∀ s : JSONWriterState, ∃ s1, jsonFinalize s = .ok s1 ∧ s1.writable = false ∧
      jsonFinalize s1 = .ok s1) ∧
    (∀ s : CSVWriterState, ∃ s1, csvFinalize s = .ok s1 ∧ s1.writable = false ∧
      csvFinalize s1 = .ok s1) := by
  constructor
  · intro s
    by_cases h : s.writable
    · refine ⟨{ s with writable := false, out := s.out ++ "\n]\n".data }, ?_, rfl, ?_⟩
      · simp [jsonFinalize, h]
      · simp [jsonFinalize]
    · refine ⟨s, ?_, by simpa using h, ?_⟩ <;> simp [jsonFinalize, h]
  · intro s
    by_cases h : s.writable
    · refine ⟨{ s with writable := false }, ?_, rfl, ?_⟩
      · simp [csvFinalize, h]
      · simp [csvFinalize]
    · refine ⟨s, ?_, by simpa using h, ?_⟩ <;> simp [csvFinalize, h]

/-- C8 counterexample: `finalize` before `initialize` on the CSV sink
returns silently instead of raising `WriterNotInitialized`, and the
per-item-file sink accepts `writeResult` before `initialize` (its check
is the constructor-set directory handle, not initialization). -/
theorem c8_counterexample :
    csvFinalize csvNew = .ok csvNew ∧
    csvNew.writable = false ∧
    (∃ s, indWrite (indNew true) ⟨"f", .vstr "r", .vundef, 0, .vundef⟩ = .ok s) := by
  refine ⟨rfl, rfl, ⟨_, rfl⟩⟩

/-- C8 amended: for the Aggregate-JSON and Flattened-CSV sinks,
`writeResult` before `initialize` or after a completed `finalize`
raises `WriterNotInitialized`; `finalize` before `initialize` returns
silently on every variant; the per-item-file sink raises only when
constructed without a directory handle, regardless of
initialization. -/
theorem c8_amended :
    (∀ (s : JSONWriterState) item, s.writable = false →
      jsonWrite s item = .error "Writer not initialized") ∧
    (∀ (s : CSVWriterState) item, s.writable = false →
      csvWrite s item = .error "Writer not initialized") ∧
    (∀ s : JSONWriterState, s.writable = false → jsonFinalize s = .ok s) ∧
    (∀ s : CSVWriterState, s.writable = false → csvFinalize s = .ok s) ∧
    (∀ s s1 : JSONWriterState, jsonFinalize s = .ok s1 → s1.writable = false) ∧
    (∀ s s1 : CSVWriterState, csvFinalize s = .ok s1 → s1.writable = false) ∧
    (∀ (s : IndWriterState) item, s.dirHandle = true → ∃ s2, indWrite s item = .ok s2) ∧
    (∀ (s : IndWriterState) item, s.dirHandle = false →
      indWrite s item = .error "Writer not initialized") := by
  refine ⟨?_, ?_, ?_, ?_, ?_, ?_, ?_, ?_⟩
  · intro s item h
    simp [jsonWrite, h]
  · intro s item h
    simp [csvWrite, h]
  · intro s h
    simp [jsonFinalize, h]
  · intro s h
    simp [csvFinalize, h]
  · intro s s1 h
    by_cases hw : s.writable
    · simp only [jsonFinalize, hw, Bool.not_true, Bool.false_eq_true, if_neg, reduceIte,
        Except.ok.injEq] at h
      rw [← h]
    · simp only [jsonFinalize, hw, Bool.not_false, if_pos, reduceIte, Except.ok.injEq] at h
      rw [← h]
      simpa using hw
  · intro s s1 h
    by_cases hw : s.writable
    · simp only [csvFinalize, hw, Bool.not_true, Bool.false_eq_true, if_neg, reduceIte,
        Except.ok.injEq] at h
      rw [← h]
    · simp only [csvFinalize, hw, Bool.not_false, if_pos, reduceIte, Except.ok.injEq] at h
      rw [← h]
      simpa using hw
  · intro s item h
    exact ⟨{ s with files := s.files ++
        [(item.filename ++ ".json", jsonStringifyPretty (.vobj (resultObject s.task item)))] },
      by simp [indWrite, h]⟩
  · intro s item h
    simp [indWrite, h]

/-- C8 witness: the amended guards at concrete states. -/
theorem c8_amended_witness :
    jsonWrite jsonNew ⟨"f", .vundef, .vundef, 0, .vundef⟩ = .error "Writer not initialized" ∧
    csvWrite csvNew ⟨"f", .vundef, .vundef, 0, .vundef⟩ = .error "Writer not initialized" ∧
    jsonFinalize jsonNew = .ok jsonNew ∧
    indWrite (indNew false) ⟨"f", .vundef, .vundef, 0, .vundef⟩ =
      .error "Writer not initialized" :=
  ⟨c8_amended.1 jsonNew _ rfl, c8_amended.2.1 csvNew _ rfl,
    c8_amended.2.2.1 jsonNew rfl, c8_amended.2.2.2.2.2.2.2 (indNew false) _ rfl⟩

/-- C4: for the Flattened-CSV sink, the first flattened row fixes the
header set for the entire file from its own key list in insertion order,
and every run's output is exactly that header line followed by every
flattened row serialized against the fixed headers (`csvSpecOutput`) —
no column is ever added after the first row. Moreover a field missing
from a row renders as the empty string (its lookup is `undefined`, which
escapes to nothing), and row serialization reads only the header keys,
so any field of a row outside the header set is dropped: two rows
agreeing on the header keys serialize identically. -/
theorem c4_first_row_fixes_schema :
    (∀ items : List ResultItem,
      csvRun items = .ok ⟨true,
        (match flattenAll items 0 with
          | [] => none
          | r0 :: _ => some (r0.map (fun p => p.1))),
        (flattenAll items 0).length,
        csvSpecOutput (flattenAll items 0)⟩) ∧
    (∀ (r : Obj) (k : String), hasKeyName r k = false →
      csvEscapeVal (objGet r k) = []) ∧
    (∀ (hs : List String) (r r2 : Obj), (∀ k ∈ hs, objGet r k = objGet r2 k) →
      serializeRowChars hs r = serializeRowChars hs r2) := by
  refine ⟨?_, ?_, ?_⟩
  · intro items
    show List.foldlM csvWrite ⟨true, none, 0, []⟩ items = _
    rw [csvRunFrom_none]
    simp
  · intro r k h
    have hnone : r.find? (fun p => p.1 == k) = none := by
      apply List.find?_eq_none.mpr
      intro p hp hbeq
      exact (hasKeyName_false_iff r k).mp h
        (List.mem_map.mpr ⟨p, hp, beq_iff_eq.mp hbeq⟩)
    unfold objGet
    rw [hnone]
    rfl
  · intro hs r r2 hagree
    unfold serializeRowChars
    have : hs.map (fun h => csvEscapeVal (objGet r h)) =
        hs.map (fun h => csvEscapeVal (objGet r2 h)) := by
      apply List.map_congr_left
      intro k hk
      rw [hagree k hk]
    rw [this]

/-- C4 witness: a bbox item followed by a string-caption item; the
caption row is padded to the bbox headers and its natural `result`
column never appears; plus concrete missing-field and
extra-field-dropped instances. -/
theorem c4_witness :
    csvRun
      [⟨"a.jpg", .vobj [("labels", .varr [.vstr "cat"]),
          ("bboxes", .varr [.varr [.vnum (.rat (mkRat 1 1)), .vnum (.rat (mkRat 2 1)),
            .vnum (.rat (mkRat 3 1)), .vnum (.rat (mkRat 4 1))]])],
        .vundef, 0, .vundef⟩,
       ⟨"b.jpg", .vstr "caption", .vundef, 0, .vundef⟩] =
      .ok ⟨true, some ["id", "filename", "label", "xmin", "ymin", "xmax", "ymax"], 2,
        ("id,filename,label,xmin,ymin,xmax,ymax\n0,a.jpg,cat,1,2,3,4\n1,b.jpg,,,,,\n").data⟩ ∧
    csvEscapeVal (objGet [("id", JSVal.vstr "0")] "label") = [] ∧
    serializeRowChars ["k"] [("k", JSVal.vstr "v"), ("junk", JSVal.vstr "w")] =
      serializeRowChars ["k"] [("k", JSVal.vstr "v")] :=
  ⟨(c4_first_row_fixes_schema.1 _).trans (by rfl),
   c4_first_row_fixes_schema.2.1 [("id", JSVal.vstr "0")] "label" rfl,
   c4_first_row_fixes_schema.2.2 ["k"] _ _ (by
     intro k hk
     simp only [List.mem_singleton] at hk
     subst hk
     rfl)⟩

end Florence2
